import Mathlib

/-!
# Verification of the sliced-PME plugin (openmm-tags)

A shallow embedding, in Lean 4, of the slice bookkeeping, parameter registry,
particle/exception management of `SlicedPmeForce`
(`src/openmmapi/src/SlicedPmeForce.cpp`), of the host-side bookkeeping of the
CUDA reciprocal-space kernel (`src/platforms/cuda/src/CudaPmeSlicingKernels.cpp`),
and of the FFT grid-dimension search
(`src/platforms/opencl/include/internal/OpenCLVkFFT3D.h`), together with proofs
of the specified properties.

Machine doubles are modelled as exact rationals (`ℚ`) where only ring
operations occur, and as reals (`ℝ`) where the specification involves `sqrt`;
C++ `int` is modelled as `Int` where sign checks matter and as `ℕ` for values
that are validated non-negative before use.
-/

namespace SlicedPme

/-! ## Slice index map

`SlicedPmeForce::addSwitchingParameter` (SlicedPmeForce.cpp:278-280) maps an
unordered pair of subset ids to a linear slice index via
`i = min(subset1, subset2); j = max(subset1, subset2); slice = j*(j+1)/2 + i`.
-/

/-- The triangular number `n*(n+1)/2` (with C-style truncating division). -/
def tri (n : ℕ) : ℕ := n * (n + 1) / 2

/-- The slice index map of `SlicedPmeForce::addSwitchingParameter`:
`min`/`max` canonicalisation followed by `j*(j+1)/2 + i`. -/
def sliceIndex (subset1 subset2 : ℕ) : ℕ :=
  let i := min subset1 subset2
  let j := max subset1 subset2
  j * (j + 1) / 2 + i

theorem tri_succ (n : ℕ) : tri (n + 1) = tri n + (n + 1) := by
  show (n + 1) * (n + 2) / 2 = n * (n + 1) / 2 + (n + 1)
  rw [show (n + 1) * (n + 2) = n * (n + 1) + (n + 1) * 2 by ring,
    Nat.add_mul_div_right _ _ (by norm_num : (0:ℕ) < 2)]

theorem tri_mono {m n : ℕ} (h : m ≤ n) : tri m ≤ tri n :=
  Nat.div_le_div_right (Nat.mul_le_mul h (by omega))

theorem sliceIndex_of_le {i j : ℕ} (h : i ≤ j) : sliceIndex i j = tri j + i := by
  simp only [sliceIndex, tri, min_eq_left h, max_eq_right h]

theorem sliceIndex_comm (i j : ℕ) : sliceIndex i j = sliceIndex j i := by
  simp only [sliceIndex, min_comm, max_comm]

theorem sliceIndex_lt_tri {i j S : ℕ} (hij : i ≤ j) (hj : j < S) :
    sliceIndex i j < tri S := by
  rw [sliceIndex_of_le hij]
  calc tri j + i ≤ tri j + j := by omega
    _ < tri (j + 1) := by rw [tri_succ]; omega
    _ ≤ tri S := tri_mono (by omega)

theorem sliceIndex_inj {i₁ j₁ i₂ j₂ : ℕ} (h₁ : i₁ ≤ j₁) (h₂ : i₂ ≤ j₂)
    (he : sliceIndex i₁ j₁ = sliceIndex i₂ j₂) : i₁ = i₂ ∧ j₁ = j₂ := by
  rw [sliceIndex_of_le h₁, sliceIndex_of_le h₂] at he
  have key : ∀ a₁ b₁ a₂ b₂ : ℕ, a₁ ≤ b₁ → a₂ ≤ b₂ → b₁ < b₂ →
      tri b₁ + a₁ < tri b₂ + a₂ := by
    intro a₁ b₁ a₂ b₂ ha₁ _ hb
    calc tri b₁ + a₁ ≤ tri b₁ + b₁ := by omega
      _ < tri (b₁ + 1) := by rw [tri_succ]; omega
      _ ≤ tri b₂ := tri_mono (by omega)
      _ ≤ tri b₂ + a₂ := by omega
  rcases lt_trichotomy j₁ j₂ with h | h | h
  · exact absurd he (Nat.ne_of_lt (key _ _ _ _ h₁ h₂ h))
  · subst h; omega
  · exact absurd he.symm (Nat.ne_of_lt (key _ _ _ _ h₂ h₁ h))

/-- Iterative inverse of the slice index map: walk through the slices in
order, enumerating the canonical pairs `(i, j)` with `i ≤ j`. -/
def unslice : ℕ → ℕ × ℕ
  | 0 => (0, 0)
  | k + 1 =>
    let p := unslice k
    if p.1 < p.2 then (p.1 + 1, p.2) else (0, p.2 + 1)

theorem unslice_spec (k : ℕ) :
    (unslice k).1 ≤ (unslice k).2 ∧ sliceIndex (unslice k).1 (unslice k).2 = k := by
  induction k with
  | zero => simp [unslice, sliceIndex, tri]
  | succ k ih =>
    obtain ⟨hle, hs⟩ := ih
    rw [sliceIndex_of_le hle] at hs
    have hdef : unslice (k + 1) = if (unslice k).1 < (unslice k).2
        then ((unslice k).1 + 1, (unslice k).2) else (0, (unslice k).2 + 1) := rfl
    by_cases h : (unslice k).1 < (unslice k).2
    · rw [hdef, if_pos h]
      refine ⟨by show (unslice k).1 + 1 ≤ (unslice k).2; omega, ?_⟩
      show sliceIndex ((unslice k).1 + 1) (unslice k).2 = k + 1
      rw [sliceIndex_of_le (by omega : (unslice k).1 + 1 ≤ (unslice k).2)]
      omega
    · rw [hdef, if_neg h]
      refine ⟨Nat.zero_le _, ?_⟩
      show sliceIndex 0 ((unslice k).2 + 1) = k + 1
      rw [sliceIndex_of_le (Nat.zero_le _), tri_succ]
      omega

/-- C2: for every subset count `S ≥ 1`, the slice index map is symmetric and
is a bijection between the canonical unordered pairs of `[0, S)` (represented
as ordered pairs `(i, j)` with `i ≤ j < S`) and the range `[0, S*(S+1)/2)`. -/
theorem sliceIndex_symm_bijective (S : ℕ) (_hS : 1 ≤ S) :
    (∀ i j, i < S → j < S → sliceIndex i j = sliceIndex j i) ∧
    (∀ i j, i < S → j < S → sliceIndex i j < S * (S + 1) / 2) ∧
    (∀ k, k < S * (S + 1) / 2 →
      ∃! p : ℕ × ℕ, p.1 ≤ p.2 ∧ p.2 < S ∧ sliceIndex p.1 p.2 = k) := by
  refine ⟨fun i j _ _ => sliceIndex_comm i j, fun i j hi hj => ?_, fun k hk => ?_⟩
  · rcases le_total i j with h | h
    · exact sliceIndex_lt_tri h hj
    · rw [sliceIndex_comm]; exact sliceIndex_lt_tri h hi
  · obtain ⟨hle, hs⟩ := unslice_spec k
    have hjS : (unslice k).2 < S := by
      by_contra hb
      have h1 : tri S ≤ tri (unslice k).2 := tri_mono (by omega)
      have h2 : tri (unslice k).2 ≤ k := by
        rw [sliceIndex_of_le hle] at hs; omega
      exact absurd hk (by change ¬ k < tri S; omega)
    refine ⟨unslice k, ⟨hle, hjS, hs⟩, ?_⟩
    rintro ⟨i, j⟩ ⟨hle', _, hs'⟩
    have := sliceIndex_inj hle' hle (hs'.trans hs.symm)
    simp only [Prod.ext_iff]
    exact ⟨this.1, this.2⟩

/-- Witness for `sliceIndex_symm_bijective`: instantiation at `S = 3`. -/
theorem sliceIndex_symm_bijective_witness :
    1 ≤ 3 ∧
    ((∀ i j, i < 3 → j < 3 → sliceIndex i j = sliceIndex j i) ∧
    (∀ i j, i < 3 → j < 3 → sliceIndex i j < 3 * (3 + 1) / 2) ∧
    (∀ k, k < 3 * (3 + 1) / 2 →
      ∃! p : ℕ × ℕ, p.1 ≤ p.2 ∧ p.2 < 3 ∧ sliceIndex p.1 p.2 = k)) :=
  ⟨by decide, sliceIndex_symm_bijective 3 (by decide)⟩

/-! ## FFT grid-dimension search

`OpenCLVkFFT3D::findLegalDimension` (OpenCLVkFFT3D.h:85-100): starting from
`minimum`, try to factor the candidate using every trial factor from `2` to
`maxPrimeFactor`; return the first candidate that factors completely.  The
inner `while` and outer `while (true)` loops are embedded with explicit fuel;
the fuel amounts are sufficient whenever the C++ loops terminate, which is
proved below for `maxPrimeFactor ≥ 2`.
-/

/-- The inner loop `while (unfactored > 1 && unfactored % factor == 0)
unfactored /= factor;`, with fuel.  For `factor ≥ 2` each iteration strictly
decreases `unfactored`, so fuel equal to the starting value suffices. -/
def stripFactorAux (factor : ℕ) : ℕ → ℕ → ℕ
  | 0, n => n
  | fuel + 1, n =>
    if 1 < n ∧ n % factor = 0 then stripFactorAux factor fuel (n / factor) else n

def stripFactor (factor n : ℕ) : ℕ := stripFactorAux factor n n

/-- The loop `for (int factor = 2; factor <= maxPrimeFactor; factor++)`
over one candidate value: trial factors `2, 3, ..., maxPrimeFactor`. -/
def unfactored (maxPrimeFactor n : ℕ) : ℕ :=
  (List.range' 2 (maxPrimeFactor - 1)).foldl (fun acc factor => stripFactor factor acc) n

/-- The exit test of the outer loop: `unfactored == 1`. -/
def isLegalDimension (maxPrimeFactor n : ℕ) : Bool :=
  unfactored maxPrimeFactor n == 1

/-- The outer `while (true) { ...; minimum++; }` loop, with fuel. -/
def findLegalFrom (maxPrimeFactor : ℕ) : ℕ → ℕ → ℕ
  | 0, minimum => minimum
  | fuel + 1, minimum =>
    if isLegalDimension maxPrimeFactor minimum then minimum
    else findLegalFrom maxPrimeFactor fuel (minimum + 1)

/-- `OpenCLVkFFT3D::findLegalDimension`.  Fuel `minimum + 1` makes the search
cover the window `[minimum, 2*minimum]`, which always contains a power of two;
for `maxPrimeFactor ≥ 2` the C++ loop stops inside this window. -/
def findLegalDimension (minimum maxPrimeFactor : ℕ) : ℕ :=
  if minimum < 1 then 1 else findLegalFrom maxPrimeFactor (minimum + 1) minimum

theorem stripFactorAux_spec (factor : ℕ) (hf : 2 ≤ factor) :
    ∀ fuel n, n ≤ fuel →
      stripFactorAux factor fuel n ∣ n ∧
      ¬(1 < stripFactorAux factor fuel n ∧ stripFactorAux factor fuel n % factor = 0) ∧
      (∀ p, p.Prime → p ∣ n → ¬ p ∣ factor → p ∣ stripFactorAux factor fuel n) := by
  intro fuel
  induction fuel with
  | zero =>
    intro n hn
    have hn0 : n = 0 := by omega
    subst hn0
    exact ⟨dvd_rfl, by simp [stripFactorAux], fun p _ h _ => h⟩
  | succ fuel ih =>
    intro n hn
    have hunf : stripFactorAux factor (fuel + 1) n
        = if 1 < n ∧ n % factor = 0 then stripFactorAux factor fuel (n / factor) else n := rfl
    rw [hunf]
    by_cases hg : 1 < n ∧ n % factor = 0
    · rw [if_pos hg]
      have hfd : factor ∣ n := Nat.dvd_of_mod_eq_zero hg.2
      have hlt : n / factor < n := Nat.div_lt_self (by omega) (by omega)
      obtain ⟨hd, hex, hp⟩ := ih (n / factor) (by omega)
      refine ⟨hd.trans (Nat.div_dvd_of_dvd hfd), hex, ?_⟩
      intro p hp' hpn hpf
      refine hp p hp' ?_ hpf
      have hmul : p ∣ factor * (n / factor) := by
        rw [Nat.mul_div_cancel' hfd]
        exact hpn
      rcases (Nat.Prime.dvd_mul hp').1 hmul with h | h
      · exact absurd h hpf
      · exact h
    · rw [if_neg hg]
      exact ⟨dvd_rfl, hg, fun p _ h _ => h⟩

theorem stripFactor_dvd {factor : ℕ} (hf : 2 ≤ factor) (n : ℕ) :
    stripFactor factor n ∣ n :=
  (stripFactorAux_spec factor hf n n le_rfl).1

theorem stripFactor_exit {factor : ℕ} (hf : 2 ≤ factor) (n : ℕ) :
    ¬(1 < stripFactor factor n ∧ stripFactor factor n % factor = 0) :=
  (stripFactorAux_spec factor hf n n le_rfl).2.1

theorem stripFactor_big_prime {factor n p : ℕ} (hf : 2 ≤ factor) (hp : p.Prime)
    (hpn : p ∣ n) (hpf : ¬ p ∣ factor) : p ∣ stripFactor factor n :=
  (stripFactorAux_spec factor hf n n le_rfl).2.2 p hp hpn hpf

theorem foldl_strip_dvd (l : List ℕ) :
    ∀ n, (∀ f ∈ l, 2 ≤ f) → (l.foldl (fun acc factor => stripFactor factor acc) n) ∣ n := by
  induction l with
  | nil => intro n _; exact dvd_rfl
  | cons f l ih =>
    intro n hl
    exact (ih (stripFactor f n) (fun g hg => hl g (List.mem_cons_of_mem f hg))).trans
      (stripFactor_dvd (hl f (List.mem_cons_self f l)) n)

theorem foldl_strip_big_prime (l : List ℕ) :
    ∀ n p, (∀ f ∈ l, 2 ≤ f) → p.Prime → p ∣ n → (∀ f ∈ l, ¬ p ∣ f) →
      p ∣ l.foldl (fun acc factor => stripFactor factor acc) n := by
  induction l with
  | nil => intro n p _ _ h _; exact h
  | cons f l ih =>
    intro n p h2 hp hpn hl
    exact ih _ p (fun g hg => h2 g (List.mem_cons_of_mem f hg)) hp
      (stripFactor_big_prime (h2 f (List.mem_cons_self f l)) hp hpn (hl f (List.mem_cons_self f l)))
      (fun g hg => hl g (List.mem_cons_of_mem f hg))

theorem foldl_strip_no_small_prime :
    ∀ (count start n : ℕ), 2 ≤ start → 1 ≤ n →
      (∀ p, p.Prime → p < start → ¬ p ∣ n) →
      ∀ p, p.Prime → p < start + count →
        ¬ p ∣ (List.range' start count).foldl (fun acc factor => stripFactor factor acc) n := by
  intro count
  induction count with
  | zero =>
    intro start n _ _ hpre p hp hlt
    exact hpre p hp (by omega)
  | succ count ih =>
    intro start n hstart hn hpre p hp hlt
    rw [List.range'_succ, List.foldl_cons]
    have hn' : 1 ≤ stripFactor start n := by
      have := stripFactor_dvd hstart n
      rcases Nat.eq_zero_or_pos (stripFactor start n) with h | h
      · rw [h] at this
        omega
      · exact h
    refine ih (start + 1) (stripFactor start n) (by omega) hn' ?_ p hp (by omega)
    intro q hq hqlt hqd
    rcases Nat.lt_or_ge q start with h | h
    · exact hpre q hq h (hqd.trans (stripFactor_dvd hstart n))
    · have hqs : q = start := by omega
      subst hqs
      have h1 : 1 < stripFactor q n := by
        rcases Nat.lt_or_ge 1 (stripFactor q n) with h' | h'
        · exact h'
        · have : stripFactor q n = 1 := by omega
          rw [this] at hqd
          exact absurd (Nat.le_of_dvd Nat.one_pos hqd) (by have := hq.two_le; omega)
      refine stripFactor_exit hstart n ⟨h1, ?_⟩
      obtain ⟨c, hc⟩ := hqd
      rw [hc]
      exact Nat.mul_mod_right q c

/-- Correctness of one candidate test: for `maxPrimeFactor ≥ 2` and `n ≥ 1`,
`unfactored == 1` holds exactly when every prime factor of `n` is at most
`maxPrimeFactor`. -/
theorem isLegalDimension_iff {maxPrimeFactor n : ℕ} (hM : 2 ≤ maxPrimeFactor)
    (hn : 1 ≤ n) :
    isLegalDimension maxPrimeFactor n = true ↔
      ∀ p, p.Prime → p ∣ n → p ≤ maxPrimeFactor := by
  have hcover : 2 + (maxPrimeFactor - 1) = maxPrimeFactor + 1 := by omega
  have hmem : ∀ f ∈ List.range' 2 (maxPrimeFactor - 1), 2 ≤ f := by
    intro f hf
    have := List.mem_range'_1.1 hf
    omega
  constructor
  · intro h p hp hpn
    by_contra hbig
    have hpd : p ∣ unfactored maxPrimeFactor n := by
      refine foldl_strip_big_prime _ n p hmem hp hpn ?_
      intro f hf
      have hfr := List.mem_range'_1.1 hf
      intro hpf
      have := Nat.le_of_dvd (by omega) hpf
      omega
    rw [isLegalDimension, beq_iff_eq] at h
    rw [h] at hpd
    have := Nat.le_of_dvd Nat.one_pos hpd
    have := hp.two_le
    omega
  · intro hleg
    rw [isLegalDimension, beq_iff_eq]
    by_contra hne
    have hd : unfactored maxPrimeFactor n ∣ n := foldl_strip_dvd _ n hmem
    have hpos : 1 ≤ unfactored maxPrimeFactor n := by
      rcases Nat.eq_zero_or_pos (unfactored maxPrimeFactor n) with h | h
      · rw [h] at hd
        omega
      · exact h
    obtain ⟨q, hq, hqd⟩ := Nat.exists_prime_and_dvd (by omega : unfactored maxPrimeFactor n ≠ 1)
    have hqn : q ∣ n := hqd.trans hd
    have hqM : q ≤ maxPrimeFactor := hleg q hq hqn
    exact foldl_strip_no_small_prime (maxPrimeFactor - 1) 2 n (by omega) hn
      (fun p hp hlt => by have := hp.two_le; omega) q hq (by omega) hqd

theorem findLegalFrom_least (maxPrimeFactor : ℕ) :
    ∀ fuel start,
      (∃ c, start ≤ c ∧ c < start + fuel ∧ isLegalDimension maxPrimeFactor c = true) →
      IsLeast {n | start ≤ n ∧ isLegalDimension maxPrimeFactor n = true}
        (findLegalFrom maxPrimeFactor fuel start) := by
  intro fuel
  induction fuel with
  | zero =>
    rintro start ⟨c, h1, h2, -⟩
    omega
  | succ fuel ih =>
    rintro start ⟨c, hc1, hc2, hc3⟩
    show IsLeast _ (if isLegalDimension maxPrimeFactor start then start
      else findLegalFrom maxPrimeFactor fuel (start + 1))
    by_cases h : isLegalDimension maxPrimeFactor start = true
    · rw [if_pos h]
      exact ⟨⟨le_rfl, h⟩, fun x hx => hx.1⟩
    · rw [if_neg h]
      have hcs : start + 1 ≤ c := by
        rcases Nat.eq_or_lt_of_le hc1 with h' | h'
        · exact absurd (h' ▸ hc3) h
        · exact h'
      obtain ⟨⟨hm1, hm2⟩, hlb⟩ := ih (start + 1) ⟨c, hcs, by omega, hc3⟩
      refine ⟨⟨by omega, hm2⟩, ?_⟩
      intro x hx
      rcases Nat.eq_or_lt_of_le hx.1 with h' | h'
      · exact absurd (h' ▸ hx.2) h
      · exact hlb ⟨h', hx.2⟩

theorem isLegalDimension_two_pow {maxPrimeFactor : ℕ} (hM : 2 ≤ maxPrimeFactor)
    (k : ℕ) : isLegalDimension maxPrimeFactor (2 ^ k) = true := by
  rw [isLegalDimension_iff hM (Nat.one_le_two_pow)]
  intro p hp hpd
  have := (Nat.Prime.dvd_of_dvd_pow hp hpd)
  have := Nat.le_of_dvd (by omega) this
  omega

/-- C3 (amended): for every `minimum ≥ 1` and `maxPrimeFactor ≥ 2`,
`findLegalDimension` returns the smallest integer `≥ minimum` whose prime
factors are all `≤ maxPrimeFactor`; in particular
`findLegalDimension(100, 7) = 100` and `findLegalDimension(101, 7) = 105`
(`105 = 3·5·7` is already legal, so the search stops before `108`). -/
theorem findLegalDimension_least (minimum maxPrimeFactor : ℕ)
    (hmin : 1 ≤ minimum) (hM : 2 ≤ maxPrimeFactor) :
    IsLeast {n | minimum ≤ n ∧ ∀ p, p.Prime → p ∣ n → p ≤ maxPrimeFactor}
      (findLegalDimension minimum maxPrimeFactor) ∧
    findLegalDimension 100 7 = 100 ∧ findLegalDimension 101 7 = 105 := by
  refine ⟨?_, by decide, by decide⟩
  have hdef : findLegalDimension minimum maxPrimeFactor
      = findLegalFrom maxPrimeFactor (minimum + 1) minimum := by
    rw [findLegalDimension, if_neg (by omega)]
  have hwin : ∃ c, minimum ≤ c ∧ c < minimum + (minimum + 1) ∧
      isLegalDimension maxPrimeFactor c = true := by
    refine ⟨2 ^ (Nat.log 2 minimum + 1), ?_, ?_, isLegalDimension_two_pow hM _⟩
    · exact le_of_lt (Nat.lt_pow_succ_log_self (by norm_num) minimum)
    · have h1 : 2 ^ Nat.log 2 minimum ≤ minimum :=
        Nat.pow_log_le_self 2 (by omega)
      have h2 : 2 ^ (Nat.log 2 minimum + 1) = 2 * 2 ^ Nat.log 2 minimum := by
        rw [pow_succ]; ring
      omega
  obtain ⟨⟨hm1, hm2⟩, hlb⟩ := findLegalFrom_least maxPrimeFactor (minimum + 1) minimum hwin
  have hpos : 1 ≤ findLegalFrom maxPrimeFactor (minimum + 1) minimum := by omega
  rw [hdef]
  refine ⟨⟨hm1, (isLegalDimension_iff hM hpos).1 hm2⟩, ?_⟩
  intro x hx
  have hx1 : 1 ≤ x := le_trans hmin hx.1
  exact hlb ⟨hx.1, (isLegalDimension_iff hM hx1).2 hx.2⟩

/-- Witness for `findLegalDimension_least`: instantiation at
`minimum = 5`, `maxPrimeFactor = 3` (and the two concrete evaluations). -/
theorem findLegalDimension_least_witness :
    1 ≤ 5 ∧ 2 ≤ 3 ∧
    (IsLeast {n | 5 ≤ n ∧ ∀ p, p.Prime → p ∣ n → p ≤ 3} (findLegalDimension 5 3) ∧
     findLegalDimension 100 7 = 100 ∧ findLegalDimension 101 7 = 105) :=
  ⟨by decide, by decide, findLegalDimension_least 5 3 (by decide) (by decide)⟩

/-- C3 counterexample.  Two parts of the claim fail on the code:
(1) `findLegalDimension(101, 7)` evaluates to `105` (legal: `105 = 3·5·7`),
not `108` as claimed; (2) the claim quantifies over every `maxPrimeFactor`,
but at `minimum = 2`, `maxPrimeFactor = 1` no integer `≥ 2` has all prime
factors `≤ 1`, so the function cannot return the smallest such integer (the
C++ loop in fact never terminates there: the candidate test
`unfactored == 1` fails for every candidate `≥ 2`). -/
theorem findLegalDimension_claim_false :
    (findLegalDimension 101 7 = 105 ∧ findLegalDimension 101 7 ≠ 108) ∧
    ¬ IsLeast {n | 2 ≤ n ∧ ∀ p, p.Prime → p ∣ n → p ≤ 1} (findLegalDimension 2 1) ∧
    (∀ n, 2 ≤ n → isLegalDimension 1 n = false) := by
  refine ⟨⟨by decide, by decide⟩, ?_, ?_⟩
  · rintro ⟨⟨h2, hleg⟩, -⟩
    obtain ⟨p, hp, hdvd⟩ :=
      Nat.exists_prime_and_dvd (show findLegalDimension 2 1 ≠ 1 by omega)
    have := hp.two_le
    exact absurd (hleg p hp hdvd) (by omega)
  · intro n hn
    have : unfactored 1 n = n := rfl
    rw [isLegalDimension, this]
    simp only [beq_eq_false_iff_ne, ne_eq]
    omega

/-! ## The SlicedPmeForce API object

State and operations of `SlicedPmeForce` (SlicedPmeForce.cpp).  Machine
doubles are modelled as `ℚ` (only ring operations and comparisons occur),
C++ `int` as `Int`.  The info structs are declared in `SlicedPmeForce.h`,
which is not among the given sources; their fields are reconstructed from
their uses in SlicedPmeForce.cpp and, for the stored slice index, from the
spec (§3).
-/

/-- Per-particle data: `ParticleInfo(charge, subset)`
(used at SlicedPmeForce.cpp:122-147). -/
structure ParticleInfo where
  charge : ℚ
  subset : Int
  deriving DecidableEq

/-- Per-exception data: `ExceptionInfo(particle1, particle2, chargeProd)`
(used at SlicedPmeForce.cpp:149-187). -/
structure ExceptionInfo where
  particle1 : Int
  particle2 : Int
  chargeProd : ℚ
  deriving DecidableEq

/-- `GlobalParameterInfo(name, defaultValue)` (SlicedPmeForce.cpp:243-266). -/
structure GlobalParameterInfo where
  name : String
  defaultValue : ℚ
  deriving DecidableEq

/-- `SwitchingParameterInfo(globalParamIndex, subset1, subset2)` with a
stored `slice` field consulted by the duplicate check at
SlicedPmeForce.cpp:281-283. -/
structure SwitchingParameterInfo where
  globalParamIndex : ℕ
  subset1 : Int
  subset2 : Int
  slice : ℕ
  deriving DecidableEq

/-- Modelled from the spec: the `SwitchingParameterInfo` constructor lives in
the missing header `SlicedPmeForce.h`; per spec §3 a slice is "represented
canonically as linear index `j*(j+1)/2 + i` where `i = min(i,j)`,
`j = max(i,j)`", so the constructor stores the subsets in canonical
(sorted) order together with the canonical slice index — consistently with
the consumer `CudaCalcSlicedPmeForceKernel::initialize`, which recomputes the
slice of a retrieved switching parameter as `s2*(s2+1)/2+s1`.  The subsets
are validated non-negative by every caller. -/
def mkSwitchingParameterInfo (globalParamIndex : ℕ) (subset1 subset2 : Int) :
    SwitchingParameterInfo :=
  { globalParamIndex := globalParamIndex
    subset1 := min subset1 subset2
    subset2 := max subset1 subset2
    slice := sliceIndex subset1.toNat subset2.toNat }

/-- `ParticleOffsetInfo(parameter, particle, chargeScale)`
(SlicedPmeForce.cpp:357-374). -/
structure ParticleOffsetInfo where
  parameter : ℕ
  particle : Int
  chargeScale : ℚ
  deriving DecidableEq

/-- `ExceptionOffsetInfo(parameter, exception, chargeProdScale)`
(SlicedPmeForce.cpp:376-393). -/
structure ExceptionOffsetInfo where
  parameter : ℕ
  exception : Int
  chargeProdScale : ℚ
  deriving DecidableEq

/-- `std::map<std::pair<int,int>, int>` modelled as an association list with
unique keys (insertion through `operator[]` replaces the binding). -/
abbrev ExceptionMap := List ((Int × Int) × ℕ)

def mapFind? (m : ExceptionMap) (k : Int × Int) : Option ℕ :=
  (m.find? (fun e => decide (e.1 = k))).map (fun e => e.2)

def mapErase (m : ExceptionMap) (k : Int × Int) : ExceptionMap :=
  m.filter (fun e => decide (e.1 ≠ k))

def mapInsert (m : ExceptionMap) (k : Int × Int) (v : ℕ) : ExceptionMap :=
  mapErase m k ++ [(k, v)]

/-- The state of a `SlicedPmeForce` object. -/
structure SlicedPmeForceState where
  numSubsets : Int
  particles : List ParticleInfo
  exceptions : List ExceptionInfo
  exceptionMap : ExceptionMap
  globalParameters : List GlobalParameterInfo
  switchingParameters : List SwitchingParameterInfo
  switchingParameter : List ℚ
  switchParamDerivatives : List ℕ
  particleOffsets : List ParticleOffsetInfo
  exceptionOffsets : List ExceptionOffsetInfo
  deriving DecidableEq

/-- `SlicedPmeForce::SlicedPmeForce(int numSubsets)` (SlicedPmeForce.cpp:34-41):
reject non-positive subset counts, then push one switching-parameter value
`1.0` per slice. -/
def mkSlicedPmeForce (numSubsets : Int) : Except String SlicedPmeForceState :=
  if numSubsets ≤ 0 then .error "Invalid number of subsets"
  else .ok
    { numSubsets := numSubsets
      particles := []
      exceptions := []
      exceptionMap := []
      globalParameters := []
      switchingParameters := []
      switchingParameter := List.replicate (numSubsets * (numSubsets + 1) / 2).toNat 1
      switchParamDerivatives := []
      particleOffsets := []
      exceptionOffsets := [] }

/-- `SlicedPmeForce::addParticle` (SlicedPmeForce.cpp:122-126).  The leading
test is the `ASSERT_VALID_SUBSET` macro (line 32).  Every operation returns
the post-call state together with the result; a C++ `throw` happens before
any mutation, so the state component is the unchanged input on failure. -/
def addParticle (st : SlicedPmeForceState) (charge : ℚ) (subset : Int) :
    SlicedPmeForceState × Except String ℕ :=
  if subset < 0 ∨ st.numSubsets ≤ subset then (st, .error "Subset out of range")
  else ({ st with particles := st.particles ++ [⟨charge, subset⟩] }, .ok st.particles.length)

/-- `SlicedPmeForce::setParticleSubset` (SlicedPmeForce.cpp:133-137):
`ASSERT_VALID_INDEX` (an OpenMM macro, out of scope) then
`ASSERT_VALID_SUBSET`, then the in-place update. -/
def setParticleSubset (st : SlicedPmeForceState) (index subset : Int) :
    SlicedPmeForceState × Except String Unit :=
  if index < 0 ∨ (st.particles.length : Int) ≤ index then (st, .error "Index out of range")
  else if subset < 0 ∨ st.numSubsets ≤ subset then (st, .error "Subset out of range")
  else
    let old := st.particles.getD index.toNat ⟨0, 0⟩
    ({ st with particles := st.particles.set index.toNat { old with subset := subset } },
      .ok ())

/-- `SlicedPmeForce::addException` (SlicedPmeForce.cpp:149-173): look the
pair up in `exceptionMap` in both orders; on a hit, either throw
(`replace == false`) or overwrite the stored exception in place and re-key
the map entry; on a miss, append a new exception. -/
def addException (st : SlicedPmeForceState) (particle1 particle2 : Int) (chargeProd : ℚ)
    (replace : Bool) : SlicedPmeForceState × Except String ℕ :=
  let iter? : Option ((Int × Int) × ℕ) :=
    match mapFind? st.exceptionMap (particle1, particle2) with
    | some v => some ((particle1, particle2), v)
    | none =>
      match mapFind? st.exceptionMap (particle2, particle1) with
      | some v => some ((particle2, particle1), v)
      | none => none
  match iter? with
  | some (key, idx) =>
    if replace then
      ({ st with
          exceptions := st.exceptions.set idx ⟨particle1, particle2, chargeProd⟩
          exceptionMap := mapInsert (mapErase st.exceptionMap key) (particle1, particle2) idx },
        .ok idx)
    else
      (st, .error ("SlicedPmeForce: There is already an exception for particles "
        ++ toString particle1 ++ " and " ++ toString particle2))
  | none =>
    ({ st with
        exceptions := st.exceptions ++ [⟨particle1, particle2, chargeProd⟩]
        exceptionMap := mapInsert st.exceptionMap (particle1, particle2) st.exceptions.length },
      .ok st.exceptions.length)

/-- `SlicedPmeForce::setExceptionParameters` (SlicedPmeForce.cpp:182-187):
bounds-check the index, then overwrite all three fields.  Note that the
`exceptionMap` is NOT updated. -/
def setExceptionParameters (st : SlicedPmeForceState) (index particle1 particle2 : Int)
    (chargeProd : ℚ) : SlicedPmeForceState × Except String Unit :=
  if index < 0 ∨ (st.exceptions.length : Int) ≤ index then (st, .error "Index out of range")
  else ({ st with
      exceptions := st.exceptions.set index.toNat ⟨particle1, particle2, chargeProd⟩ }, .ok ())

/-- `SlicedPmeForce::addGlobalParameter` (SlicedPmeForce.cpp:243-246). -/
def addGlobalParameter (st : SlicedPmeForceState) (name : String) (defaultValue : ℚ) :
    SlicedPmeForceState × ℕ :=
  ({ st with globalParameters := st.globalParameters ++ [⟨name, defaultValue⟩] },
    st.globalParameters.length)

/-- `SlicedPmeForce::getGlobalParameterIndex` (SlicedPmeForce.cpp:268-273):
linear search by name; throws when absent. -/
def getGlobalParameterIndex (st : SlicedPmeForceState) (parameter : String) :
    Except String ℕ :=
  match st.globalParameters.findIdx? (fun g => g.name == parameter) with
  | some i => .ok i
  | none => .error ("There is no global parameter called " ++ parameter)

/-- `SlicedPmeForce::addSwitchingParameter` (SlicedPmeForce.cpp:275-286):
validate both subsets, reject a slice that already has a bound parameter,
resolve the global-parameter name (throws when unknown), then append. -/
def addSwitchingParameter (st : SlicedPmeForceState) (parameter : String)
    (subset1 subset2 : Int) : SlicedPmeForceState × Except String ℕ :=
  if subset1 < 0 ∨ st.numSubsets ≤ subset1 then (st, .error "Subset out of range")
  else if subset2 < 0 ∨ st.numSubsets ≤ subset2 then (st, .error "Subset out of range")
  else
    let slice := sliceIndex subset1.toNat subset2.toNat
    if st.switchingParameters.any (fun sp => sp.slice == slice) then
      (st, .error "A switching parameter has already been defined for this slice")
    else
      match getGlobalParameterIndex st parameter with
      | .error e => (st, .error e)
      | .ok gpi =>
        ({ st with switchingParameters :=
            st.switchingParameters ++ [mkSwitchingParameterInfo gpi subset1 subset2] },
          .ok st.switchingParameters.length)

/-! ### List helpers -/

theorem getD_set_self {α : Type} (l : List α) (i : ℕ) (a d : α) (h : i < l.length) :
    (l.set i a).getD i d = a := by
  induction l generalizing i with
  | nil => simp at h
  | cons x xs ih =>
    cases i with
    | zero => rfl
    | succ i =>
      simp only [List.set, List.getD, List.getElem?_cons_succ]
      have := ih i (by simpa using h)
      simpa [List.getD] using this

theorem getD_set_ne {α : Type} (l : List α) (i k : ℕ) (a d : α) (h : k ≠ i) :
    (l.set i a).getD k d = l.getD k d := by
  induction l generalizing i k with
  | nil => simp [List.set]
  | cons x xs ih =>
    cases i with
    | zero =>
      cases k with
      | zero => omega
      | succ k => rfl
    | succ i =>
      cases k with
      | zero => rfl
      | succ k =>
        simp only [List.set, List.getD, List.getElem?_cons_succ]
        have := ih i k (by omega)
        simpa [List.getD] using this

theorem getD_append_left {α : Type} (l l' : List α) (k : ℕ) (d : α) (h : k < l.length) :
    ((l ++ l').getD k d) = l.getD k d := by
  induction l generalizing k with
  | nil => simp at h
  | cons x xs ih =>
    cases k with
    | zero => rfl
    | succ k =>
      simp only [List.cons_append, List.getD, List.getElem?_cons_succ]
      have := ih k (by simpa using h)
      simpa [List.getD] using this

theorem getD_append_right_self {α : Type} (l : List α) (a d : α) :
    ((l ++ [a]).getD l.length d) = a := by
  induction l with
  | nil => rfl
  | cons x xs ih =>
    simp only [List.cons_append, List.length_cons, List.getD, List.getElem?_cons_succ]
    exact ih

/-! ### C10: the constructor -/

/-- C10: constructing a `SlicedPmeForce` with `numSubsets ≤ 0` throws an
"Invalid number of subsets" error; for every `numSubsets ≥ 1` construction
succeeds and creates exactly `numSubsets*(numSubsets+1)/2` per-slice scaling
entries, all initialised to `1.0`. -/
theorem mkSlicedPmeForce_spec (numSubsets : Int) :
    (numSubsets ≤ 0 → mkSlicedPmeForce numSubsets = .error "Invalid number of subsets") ∧
    (1 ≤ numSubsets → ∃ st, mkSlicedPmeForce numSubsets = .ok st ∧
      (st.switchingParameter.length : Int) = numSubsets * (numSubsets + 1) / 2 ∧
      ∀ v ∈ st.switchingParameter, v = 1) := by
  constructor
  · intro h
    rw [mkSlicedPmeForce, if_pos h]
  · intro h
    refine ⟨_, by rw [mkSlicedPmeForce, if_neg (by omega)], ?_, ?_⟩
    · show ((List.replicate (numSubsets * (numSubsets + 1) / 2).toNat (1:ℚ)).length : Int) = _
      rw [List.length_replicate]
      exact Int.toNat_of_nonneg (Int.ediv_nonneg (by nlinarith) (by norm_num))
    · intro v hv
      exact List.eq_of_mem_replicate hv

/-- Witness for `mkSlicedPmeForce_spec`: instantiations at `-3` and `3`. -/
theorem mkSlicedPmeForce_spec_witness :
    mkSlicedPmeForce (-3) = .error "Invalid number of subsets" ∧
    (∃ st, mkSlicedPmeForce 3 = .ok st ∧
      (st.switchingParameter.length : Int) = 3 * (3 + 1) / 2 ∧
      ∀ v ∈ st.switchingParameter, v = 1) :=
  ⟨(mkSlicedPmeForce_spec (-3)).1 (by decide), (mkSlicedPmeForce_spec 3).2 (by decide)⟩

/-! ### C9: subset range checking -/

/-- The conclusion of the C9 claim at one state and one argument tuple:
`addParticle`/`setParticleSubset` raise "Subset out of range" exactly for an
out-of-range subset, failures leave the particle array unchanged, successes
change exactly what they should, and the all-subsets-in-range invariant is
preserved by both calls. -/
def SubsetRangeCheckSpec (st : SlicedPmeForceState) (charge : ℚ) (index subset : Int) :
    Prop :=
  ((subset < 0 ∨ st.numSubsets ≤ subset) ↔
    addParticle st charge subset = (st, .error "Subset out of range")) ∧
  ((0 ≤ subset ∧ subset < st.numSubsets) →
    addParticle st charge subset =
      ({ st with particles := st.particles ++ [⟨charge, subset⟩] }, .ok st.particles.length)) ∧
  ((subset < 0 ∨ st.numSubsets ≤ subset) ↔
    setParticleSubset st index subset = (st, .error "Subset out of range")) ∧
  ((0 ≤ subset ∧ subset < st.numSubsets) →
    (setParticleSubset st index subset).2 = .ok () ∧
    (setParticleSubset st index subset).1.particles.length = st.particles.length ∧
    (∀ k : ℕ, k ≠ index.toNat →
      (setParticleSubset st index subset).1.particles.getD k ⟨0, 0⟩
        = st.particles.getD k ⟨0, 0⟩) ∧
    ((setParticleSubset st index subset).1.particles.getD index.toNat ⟨0, 0⟩).subset
      = subset ∧
    ((setParticleSubset st index subset).1.particles.getD index.toNat ⟨0, 0⟩).charge
      = (st.particles.getD index.toNat ⟨0, 0⟩).charge) ∧
  ((∀ p ∈ st.particles, 0 ≤ p.subset ∧ p.subset < st.numSubsets) →
    (∀ p ∈ (addParticle st charge subset).1.particles,
      0 ≤ p.subset ∧ p.subset < st.numSubsets) ∧
    (∀ p ∈ (setParticleSubset st index subset).1.particles,
      0 ≤ p.subset ∧ p.subset < st.numSubsets))

/-- C9: for every force state and valid particle index, `addParticle` and
`setParticleSubset` throw "Subset out of range" exactly when the subset id is
outside `[0, numSubsets)`, failures leave the particle array unchanged, and
both operations preserve the invariant that every stored particle's subset id
is in `[0, numSubsets)`. -/
theorem subsetRangeCheck_spec (st : SlicedPmeForceState) (charge : ℚ) (index subset : Int)
    (hidx : 0 ≤ index ∧ index < (st.particles.length : Int)) :
    SubsetRangeCheckSpec st charge index subset := by
  have hidx2 : ¬(index < 0 ∨ (st.particles.length : Int) ≤ index) := by omega
  by_cases hsub : subset < 0 ∨ st.numSubsets ≤ subset
  · refine ⟨⟨fun _ => by rw [addParticle, if_pos hsub], fun _ => hsub⟩,
      fun h => by omega,
      ⟨fun _ => by rw [setParticleSubset, if_neg hidx2, if_pos hsub], fun _ => hsub⟩,
      fun h => by omega, ?_⟩
    intro hinv
    rw [addParticle, if_pos hsub, setParticleSubset, if_neg hidx2, if_pos hsub]
    exact ⟨hinv, hinv⟩
  · have haddeq : addParticle st charge subset =
        ({ st with particles := st.particles ++ [⟨charge, subset⟩] }, .ok st.particles.length) := by
      rw [addParticle, if_neg hsub]
    have hset1 : (setParticleSubset st index subset).1.particles
        = st.particles.set index.toNat
            ({ st.particles.getD index.toNat ⟨0, 0⟩ with subset := subset }) := by
      rw [setParticleSubset, if_neg hidx2, if_neg hsub]
    have hset2 : (setParticleSubset st index subset).2 = .ok () := by
      rw [setParticleSubset, if_neg hidx2, if_neg hsub]
    have hlen : index.toNat < st.particles.length := by omega
    refine ⟨⟨fun h => absurd h hsub, fun h => ?_⟩, fun _ => haddeq,
      ⟨fun h => absurd h hsub, fun h => ?_⟩, fun _ => ?_, fun hinv => ?_⟩
    · have h2 := congrArg Prod.snd h
      rw [haddeq] at h2
      simp at h2
    · have h2 := congrArg Prod.snd h
      rw [hset2] at h2
      simp at h2
    · refine ⟨hset2, ?_, fun k hk => ?_, ?_, ?_⟩
      · rw [hset1]
        simp
      · rw [hset1]
        exact getD_set_ne _ _ _ _ _ hk
      · rw [hset1, getD_set_self _ _ _ _ hlen]
      · rw [hset1, getD_set_self _ _ _ _ hlen]
    · constructor
      · intro p hp
        rw [haddeq] at hp
        rcases List.mem_append.1 hp with h | h
        · exact hinv p h
        · rcases List.mem_singleton.1 h with rfl
          exact ⟨by show (0:Int) ≤ subset; omega, by show subset < st.numSubsets; omega⟩
      · intro p hp
        rw [hset1] at hp
        rcases List.mem_or_eq_of_mem_set hp with h | h
        · exact hinv p h
        · rcases h with rfl
          exact ⟨by show (0:Int) ≤ subset; omega, by show subset < st.numSubsets; omega⟩

/-- Witness for `subsetRangeCheck_spec`: a concrete two-subset force holding
one particle, probed at `index = 0`, `subset = 1`. -/
theorem subsetRangeCheck_spec_witness :
    (0 ≤ (0 : Int) ∧ (0 : Int) <
      ((SlicedPmeForceState.particles
        { numSubsets := 2, particles := [⟨1, 0⟩], exceptions := [], exceptionMap := [],
          globalParameters := [], switchingParameters := [], switchingParameter := [1, 1, 1],
          switchParamDerivatives := [], particleOffsets := [], exceptionOffsets := [] }).length
        : Int)) ∧
    SubsetRangeCheckSpec
      { numSubsets := 2, particles := [⟨1, 0⟩], exceptions := [], exceptionMap := [],
        globalParameters := [], switchingParameters := [], switchingParameter := [1, 1, 1],
        switchParamDerivatives := [], particleOffsets := [], exceptionOffsets := [] }
      2 0 1 :=
  ⟨by decide, subsetRangeCheck_spec _ 2 0 1 (by decide)⟩

/-! ### Exception-map lemmas (C5) -/

theorem mapFind?_some {m : ExceptionMap} {k : Int × Int} {v : ℕ}
    (h : mapFind? m k = some v) : (k, v) ∈ m := by
  unfold mapFind? at h
  cases hf : m.find? (fun e => decide (e.1 = k)) with
  | none => rw [hf] at h; simp at h
  | some e =>
    rw [hf] at h
    have hmem := List.mem_of_find?_eq_some hf
    have hpred := List.find?_some hf
    rw [decide_eq_true_eq] at hpred
    obtain ⟨k', v'⟩ := e
    have hk : k' = k := hpred
    have hv : v' = v := Option.some.inj h
    rw [← hk, ← hv]
    exact hmem

theorem mapFind?_none {m : ExceptionMap} {k : Int × Int}
    (h : mapFind? m k = none) : ∀ v, (k, v) ∉ m := by
  intro v hv
  unfold mapFind? at h
  cases hf : m.find? (fun e => decide (e.1 = k)) with
  | some e => rw [hf] at h; simp at h
  | none =>
    have := List.find?_eq_none.1 hf (k, v) hv
    simp at this

theorem mapFind?_isSome_of_mem {m : ExceptionMap} {k : Int × Int} {v : ℕ}
    (h : (k, v) ∈ m) : (mapFind? m k).isSome = true := by
  unfold mapFind?
  cases hf : m.find? (fun e => decide (e.1 = k)) with
  | some e => simp
  | none =>
    have := List.find?_eq_none.1 hf (k, v) h
    simp at this

theorem mem_mapErase {m : ExceptionMap} {k : Int × Int} {e : (Int × Int) × ℕ} :
    e ∈ mapErase m k ↔ e ∈ m ∧ e.1 ≠ k := by
  unfold mapErase
  rw [List.mem_filter]
  simp

theorem mem_mapInsert {m : ExceptionMap} {k : Int × Int} {v : ℕ} {e : (Int × Int) × ℕ} :
    e ∈ mapInsert m k v ↔ (e ∈ m ∧ e.1 ≠ k) ∨ e = (k, v) := by
  unfold mapInsert
  rw [List.mem_append, mem_mapErase]
  simp

theorem mapErase_of_find?_none {m : ExceptionMap} {k : Int × Int}
    (h : mapFind? m k = none) : mapErase m k = m := by
  unfold mapErase
  apply List.filter_eq_self.2
  intro e he
  obtain ⟨k', v'⟩ := e
  simp only [ne_eq, decide_eq_true_eq]
  intro hek
  subst hek
  exact mapFind?_none h v' he

/-! ### Unordered particle pairs (C5) -/

/-- Canonical representative of an unordered pair of particle indices. -/
def sortPair (p : Int × Int) : Int × Int := if p.1 ≤ p.2 then p else (p.2, p.1)

/-- Two int pairs denote the same unordered particle pair. -/
abbrev sameUnordered (a b : Int × Int) : Prop := sortPair a = sortPair b

/-- The particle pair recorded in an exception. -/
def epair (e : ExceptionInfo) : Int × Int := (e.particle1, e.particle2)

theorem sortPair_swap (a b : Int) : sortPair (a, b) = sortPair (b, a) := by
  unfold sortPair
  by_cases h1 : a ≤ b <;> by_cases h2 : b ≤ a
  · have hab : a = b := le_antisymm h1 h2
    subst hab
    rfl
  · rw [if_pos h1, if_neg h2]
  · rw [if_neg h1, if_pos h2]
  · omega

theorem sortPair_cases {a b : Int × Int} (h : sortPair a = sortPair b) :
    a = b ∨ a = (b.2, b.1) := by
  unfold sortPair at h
  by_cases h1 : a.1 ≤ a.2 <;> by_cases h2 : b.1 ≤ b.2
  · rw [if_pos h1, if_pos h2] at h
    exact Or.inl h
  · rw [if_pos h1, if_neg h2] at h
    exact Or.inr h
  · rw [if_neg h1, if_pos h2] at h
    have e1 : a.2 = b.1 := congrArg Prod.fst h
    have e2 : a.1 = b.2 := congrArg Prod.snd h
    exact Or.inr (Prod.ext e2 e1)
  · rw [if_neg h1, if_neg h2] at h
    have e1 : a.2 = b.2 := congrArg Prod.fst h
    have e2 : a.1 = b.1 := congrArg Prod.snd h
    exact Or.inl (Prod.ext e2 e1)

/-! ### Exception-map well-formedness (C5) -/

/-- Well-formedness of `exceptionMap` relative to the `exceptions` list:
every map entry points at an in-range exception carrying the same unordered
pair, every exception index is registered, and map entries are unique both
per unordered pair and per index.  This holds in every state whose exception
list was populated through `addException` (and is preserved by it); it is
exactly the consistency that `setExceptionParameters` can destroy, because
that setter rewrites the stored pair without touching the map. -/
abbrev ExceptionMapWF (st : SlicedPmeForceState) : Prop :=
  (∀ e ∈ st.exceptionMap, e.2 < st.exceptions.length ∧
    sameUnordered e.1 (epair (st.exceptions.getD e.2 ⟨0, 0, 0⟩))) ∧
  (∀ k, k < st.exceptions.length → ∃ e, e ∈ st.exceptionMap ∧ e.2 = k) ∧
  (∀ e₁ ∈ st.exceptionMap, ∀ e₂ ∈ st.exceptionMap, sameUnordered e₁.1 e₂.1 → e₁ = e₂) ∧
  (∀ e₁ ∈ st.exceptionMap, ∀ e₂ ∈ st.exceptionMap, e₁.2 = e₂.2 → e₁ = e₂)

/-- No two stored exceptions refer to the same unordered particle pair. -/
abbrev NoDuplicatePairs (exs : List ExceptionInfo) : Prop :=
  ∀ j, j < exs.length → ∀ i, i < j →
    ¬ sameUnordered (epair (exs.getD i ⟨0, 0, 0⟩)) (epair (exs.getD j ⟨0, 0, 0⟩))

/-- An exception for the unordered pair `{p1, p2}` is already stored. -/
abbrev hasExceptionFor (st : SlicedPmeForceState) (p1 p2 : Int) : Prop :=
  ∃ e ∈ st.exceptions, sameUnordered (p1, p2) (epair e)

theorem noDuplicatePairs_of_WF {st : SlicedPmeForceState} (h : ExceptionMapWF st) :
    NoDuplicatePairs st.exceptions := by
  obtain ⟨h1, h2, h3, _⟩ := h
  intro j hj i hij hsame
  obtain ⟨ei, hei, hieq⟩ := h2 i (by omega)
  obtain ⟨ej, hej, hjeq⟩ := h2 j hj
  have hpi := (h1 ei hei).2
  have hpj := (h1 ej hej).2
  rw [hieq] at hpi
  rw [hjeq] at hpj
  have hkeys : sameUnordered ei.1 ej.1 := by
    unfold sameUnordered at hpi hpj hsame ⊢
    rw [hpi, hsame, ← hpj]
  have := h3 ei hei ej hej hkeys
  rw [this] at hieq
  omega

theorem getD_eq_get {α : Type} (l : List α) (k : ℕ) (d : α) (h : k < l.length) :
    l.getD k d = l.get ⟨k, h⟩ := by
  induction l generalizing k with
  | nil => simp at h
  | cons x xs ih =>
    cases k with
    | zero => rfl
    | succ k =>
      simp only [List.getD, List.getElem?_cons_succ, List.get]
      have := ih k (by simpa using h)
      simpa [List.getD] using this

theorem ExceptionMapWF_replace (st : SlicedPmeForceState)
    (hwf : ExceptionMapWF st) (key : Int × Int) (idx : ℕ) (p1 p2 : Int) (c : ℚ)
    (hmem : (key, idx) ∈ st.exceptionMap)
    (hkey : sameUnordered key (p1, p2)) :
    ExceptionMapWF { st with
      exceptions := st.exceptions.set idx ⟨p1, p2, c⟩
      exceptionMap := mapInsert (mapErase st.exceptionMap key) (p1, p2) idx } := by
  obtain ⟨w1, w2, w3, w4⟩ := hwf
  have hidxlt : idx < st.exceptions.length := (w1 (key, idx) hmem).1
  have hmm : ∀ e : (Int × Int) × ℕ,
      e ∈ mapInsert (mapErase st.exceptionMap key) (p1, p2) idx ↔
      (e ∈ st.exceptionMap ∧ e.1 ≠ key ∧ e.1 ≠ (p1, p2)) ∨ e = ((p1, p2), idx) := by
    intro e
    rw [mem_mapInsert, mem_mapErase]
    tauto
  refine ⟨?_, ?_, ?_, ?_⟩
  · intro e he
    rcases (hmm e).1 he with ⟨hm, hne1, _⟩ | rfl
    · have hne_idx : e.2 ≠ idx := by
        intro hcontra
        have heq := w4 e hm (key, idx) hmem hcontra
        exact hne1 (congrArg Prod.fst heq)
      refine ⟨?_, ?_⟩
      · show e.2 < (st.exceptions.set idx ⟨p1, p2, c⟩).length
        rw [List.length_set]
        exact (w1 e hm).1
      · show sameUnordered e.1
          (epair ((st.exceptions.set idx ⟨p1, p2, c⟩).getD e.2 ⟨0, 0, 0⟩))
        rw [getD_set_ne _ _ _ _ _ hne_idx]
        exact (w1 e hm).2
    · refine ⟨?_, ?_⟩
      · show idx < (st.exceptions.set idx ⟨p1, p2, c⟩).length
        rw [List.length_set]
        exact hidxlt
      · show sameUnordered (p1, p2)
          (epair ((st.exceptions.set idx ⟨p1, p2, c⟩).getD idx ⟨0, 0, 0⟩))
        rw [getD_set_self _ _ _ _ hidxlt]
        rfl
  · intro k hk
    have hk' : k < st.exceptions.length := by
      have : k < (st.exceptions.set idx ⟨p1, p2, c⟩).length := hk
      rw [List.length_set] at this
      exact this
    by_cases hki : k = idx
    · subst hki
      exact ⟨((p1, p2), k), (hmm _).2 (Or.inr rfl), rfl⟩
    · obtain ⟨e, hem, hek⟩ := w2 k hk'
      have hne1 : e.1 ≠ key := by
        intro hcontra
        have hsu : sameUnordered e.1 key := by
          show sortPair e.1 = sortPair key
          rw [hcontra]
        have heq := w3 e hem (key, idx) hmem hsu
        rw [heq] at hek
        have hik : idx = k := hek
        exact hki hik.symm
      have hne2 : e.1 ≠ (p1, p2) := by
        intro hcontra
        have hsu : sameUnordered e.1 key := by
          show sortPair e.1 = sortPair key
          rw [hcontra, hkey]
        have heq := w3 e hem (key, idx) hmem hsu
        rw [heq] at hek
        have hik : idx = k := hek
        exact hki hik.symm
      exact ⟨e, (hmm e).2 (Or.inl ⟨hem, hne1, hne2⟩), hek⟩
  · intro e₁ he₁ e₂ he₂ hsu
    rcases (hmm e₁).1 he₁ with ⟨hm1, hn11, _⟩ | h1 <;>
      rcases (hmm e₂).1 he₂ with ⟨hm2, hn21, _⟩ | h2
    · exact w3 e₁ hm1 e₂ hm2 hsu
    · have hsu' : sameUnordered e₁.1 key := by
        show sortPair e₁.1 = sortPair key
        rw [hkey]
        have h2' : e₂.1 = (p1, p2) := congrArg Prod.fst h2
        rw [← h2']
        exact hsu
      have heq := w3 e₁ hm1 (key, idx) hmem hsu'
      exact absurd (congrArg Prod.fst heq) hn11
    · have hsu' : sameUnordered e₂.1 key := by
        show sortPair e₂.1 = sortPair key
        rw [hkey]
        have h1' : e₁.1 = (p1, p2) := congrArg Prod.fst h1
        rw [← h1']
        exact hsu.symm
      have heq := w3 e₂ hm2 (key, idx) hmem hsu'
      exact absurd (congrArg Prod.fst heq) hn21
    · rw [h1, h2]
  · intro e₁ he₁ e₂ he₂ hidx
    rcases (hmm e₁).1 he₁ with ⟨hm1, hn11, _⟩ | h1 <;>
      rcases (hmm e₂).1 he₂ with ⟨hm2, hn21, _⟩ | h2
    · exact w4 e₁ hm1 e₂ hm2 hidx
    · have h2' : e₂.2 = idx := congrArg Prod.snd h2
      have heq := w4 e₁ hm1 (key, idx) hmem (by rw [hidx, h2'])
      exact absurd (congrArg Prod.fst heq) hn11
    · have h1' : e₁.2 = idx := congrArg Prod.snd h1
      have heq := w4 e₂ hm2 (key, idx) hmem (by rw [← hidx, h1'])
      exact absurd (congrArg Prod.fst heq) hn21
    · rw [h1, h2]

theorem ExceptionMapWF_append (st : SlicedPmeForceState)
    (hwf : ExceptionMapWF st) (p1 p2 : Int) (c : ℚ)
    (h1 : mapFind? st.exceptionMap (p1, p2) = none)
    (h2 : mapFind? st.exceptionMap (p2, p1) = none) :
    ExceptionMapWF { st with
      exceptions := st.exceptions ++ [⟨p1, p2, c⟩]
      exceptionMap := mapInsert st.exceptionMap (p1, p2) st.exceptions.length } := by
  obtain ⟨w1, w2, w3, w4⟩ := hwf
  have hkeys : ∀ e ∈ st.exceptionMap, e.1 ≠ (p1, p2) ∧ e.1 ≠ (p2, p1) := by
    intro e hm
    obtain ⟨k', v'⟩ := e
    constructor
    · intro hc
      have hc' : k' = (p1, p2) := hc
      subst hc'
      exact mapFind?_none h1 v' hm
    · intro hc
      have hc' : k' = (p2, p1) := hc
      subst hc'
      exact mapFind?_none h2 v' hm
  have hmm : ∀ e : (Int × Int) × ℕ,
      e ∈ mapInsert st.exceptionMap (p1, p2) st.exceptions.length ↔
      e ∈ st.exceptionMap ∨ e = ((p1, p2), st.exceptions.length) := by
    intro e
    rw [mem_mapInsert]
    constructor
    · rintro (⟨hm, _⟩ | h)
      · exact Or.inl hm
      · exact Or.inr h
    · rintro (hm | h)
      · exact Or.inl ⟨hm, (hkeys e hm).1⟩
      · exact Or.inr h
  refine ⟨?_, ?_, ?_, ?_⟩
  · intro e he
    rcases (hmm e).1 he with hm | rfl
    · refine ⟨?_, ?_⟩
      · show e.2 < (st.exceptions ++ [(⟨p1, p2, c⟩ : ExceptionInfo)]).length
        rw [List.length_append]
        have := (w1 e hm).1
        simp only [List.length_singleton]
        omega
      · show sameUnordered e.1
          (epair ((st.exceptions ++ [(⟨p1, p2, c⟩ : ExceptionInfo)]).getD e.2 ⟨0, 0, 0⟩))
        rw [getD_append_left _ _ _ _ (w1 e hm).1]
        exact (w1 e hm).2
    · refine ⟨?_, ?_⟩
      · show st.exceptions.length < (st.exceptions ++ [(⟨p1, p2, c⟩ : ExceptionInfo)]).length
        rw [List.length_append]
        simp
      · show sameUnordered (p1, p2)
          (epair ((st.exceptions ++ [(⟨p1, p2, c⟩ : ExceptionInfo)]).getD st.exceptions.length ⟨0, 0, 0⟩))
        rw [getD_append_right_self]
        rfl
  · intro k hk
    have hk' : k < st.exceptions.length + 1 := by
      have : k < (st.exceptions ++ [(⟨p1, p2, c⟩ : ExceptionInfo)]).length := hk
      rw [List.length_append] at this
      simpa using this
    by_cases hkl : k < st.exceptions.length
    · obtain ⟨e, hm, he⟩ := w2 k hkl
      exact ⟨e, (hmm e).2 (Or.inl hm), he⟩
    · have hke : k = st.exceptions.length := by omega
      subst hke
      exact ⟨_, (hmm _).2 (Or.inr rfl), rfl⟩
  · intro e₁ he₁ e₂ he₂ hsu
    rcases (hmm e₁).1 he₁ with hm1 | hn1 <;> rcases (hmm e₂).1 he₂ with hm2 | hn2
    · exact w3 e₁ hm1 e₂ hm2 hsu
    · have h2' : e₂.1 = (p1, p2) := congrArg Prod.fst hn2
      have : sortPair e₁.1 = sortPair (p1, p2) := by rw [← h2']; exact hsu
      rcases sortPair_cases this with h | h
      · exact absurd h (hkeys e₁ hm1).1
      · exact absurd h (hkeys e₁ hm1).2
    · have h1' : e₁.1 = (p1, p2) := congrArg Prod.fst hn1
      have : sortPair e₂.1 = sortPair (p1, p2) := by rw [← h1']; exact hsu.symm
      rcases sortPair_cases this with h | h
      · exact absurd h (hkeys e₂ hm2).1
      · exact absurd h (hkeys e₂ hm2).2
    · rw [hn1, hn2]
  · intro e₁ he₁ e₂ he₂ hidx
    rcases (hmm e₁).1 he₁ with hm1 | hn1 <;> rcases (hmm e₂).1 he₂ with hm2 | hn2
    · exact w4 e₁ hm1 e₂ hm2 hidx
    · have h2' : e₂.2 = st.exceptions.length := congrArg Prod.snd hn2
      have := (w1 e₁ hm1).1
      omega
    · have h1' : e₁.2 = st.exceptions.length := congrArg Prod.snd hn1
      have := (w1 e₂ hm2).1
      omega
    · rw [hn1, hn2]

theorem hasExceptionFor_iff {st : SlicedPmeForceState} {p1 p2 : Int} :
    hasExceptionFor st p1 p2 ↔
      ∃ k, k < st.exceptions.length ∧
        sameUnordered (p1, p2) (epair (st.exceptions.getD k ⟨0, 0, 0⟩)) := by
  constructor
  · rintro ⟨e, he, hs⟩
    obtain ⟨⟨k, hk⟩, hge⟩ := List.mem_iff_get.1 he
    refine ⟨k, hk, ?_⟩
    rw [getD_eq_get _ _ _ hk, hge]
    exact hs
  · rintro ⟨k, hk, hs⟩
    refine ⟨st.exceptions.get ⟨k, hk⟩, List.get_mem st.exceptions k hk, ?_⟩
    rw [getD_eq_get _ _ _ hk] at hs
    exact hs

/-- The conclusion of the C5 claim at one state and argument tuple: if an
exception for the unordered pair is already stored, `replace = false` throws
leaving the state unchanged and `replace = true` overwrites in place
returning the existing index without growing the list; otherwise the new
exception is appended; and in all cases exception-map well-formedness, and
with it the absence of duplicate unordered pairs, is preserved. -/
def AddExceptionSpec (st : SlicedPmeForceState) (p1 p2 : Int) (c : ℚ)
    (replace : Bool) : Prop :=
  (hasExceptionFor st p1 p2 →
    (replace = false →
      (addException st p1 p2 c replace).1 = st ∧
      ∃ msg, (addException st p1 p2 c replace).2 = .error msg) ∧
    (replace = true →
      ∃ k, k < st.exceptions.length ∧
        sameUnordered (p1, p2) (epair (st.exceptions.getD k ⟨0, 0, 0⟩)) ∧
        (addException st p1 p2 c replace).2 = .ok k ∧
        (addException st p1 p2 c replace).1.exceptions
          = st.exceptions.set k ⟨p1, p2, c⟩ ∧
        ((addException st p1 p2 c replace).1.exceptions).length
          = st.exceptions.length)) ∧
  (¬ hasExceptionFor st p1 p2 →
    (addException st p1 p2 c replace).1.exceptions = st.exceptions ++ [⟨p1, p2, c⟩] ∧
    (addException st p1 p2 c replace).2 = .ok st.exceptions.length) ∧
  ExceptionMapWF (addException st p1 p2 c replace).1 ∧
  NoDuplicatePairs ((addException st p1 p2 c replace).1.exceptions)

/-- C5 (amended): in every state whose exception map is consistent with its
exception list — as in any state built through `addException` —
`SlicedPmeForce::addException` behaves as claimed and never creates two
exceptions for the same unordered particle pair. -/
theorem addException_spec (st : SlicedPmeForceState) (hwf : ExceptionMapWF st)
    (p1 p2 : Int) (c : ℚ) (replace : Bool) :
    AddExceptionSpec st p1 p2 c replace := by
  have hw := hwf
  obtain ⟨w1, w2, w3, w4⟩ := hwf
  cases hA : mapFind? st.exceptionMap (p1, p2) with
  | some v =>
    have hmemA : ((p1, p2), v) ∈ st.exceptionMap := mapFind?_some hA
    have hvlt : v < st.exceptions.length := (w1 _ hmemA).1
    have hvp : sameUnordered (p1, p2) (epair (st.exceptions.getD v ⟨0, 0, 0⟩)) :=
      (w1 _ hmemA).2
    have hhas : hasExceptionFor st p1 p2 := hasExceptionFor_iff.2 ⟨v, hvlt, hvp⟩
    cases replace with
    | false =>
      have hred : addException st p1 p2 c false =
          (st, .error ("SlicedPmeForce: There is already an exception for particles "
            ++ toString p1 ++ " and " ++ toString p2)) := by
        rw [addException, hA]
        rfl
      refine ⟨?_, ?_, ?_, ?_⟩
      · intro _
        refine ⟨?_, ?_⟩
        · intro _
          rw [hred]
          exact ⟨rfl, ⟨_, rfl⟩⟩
        · intro h
          exact absurd h (by decide)
      · intro hn
        exact absurd hhas hn
      · rw [hred]
        exact hw
      · rw [hred]
        exact noDuplicatePairs_of_WF hw
    | true =>
      have hred : addException st p1 p2 c true =
          ({ st with
              exceptions := st.exceptions.set v ⟨p1, p2, c⟩
              exceptionMap := mapInsert (mapErase st.exceptionMap (p1, p2)) (p1, p2) v },
            .ok v) := by
        rw [addException, hA]
        rfl
      have hwf' := ExceptionMapWF_replace st hw (p1, p2) v p1 p2 c hmemA rfl
      refine ⟨?_, ?_, ?_, ?_⟩
      · intro _
        refine ⟨?_, ?_⟩
        · intro h
          exact absurd h (by decide)
        · intro _
          refine ⟨v, hvlt, hvp, ?_, ?_, ?_⟩
          · rw [hred]
          · rw [hred]
          · rw [hred]
            exact List.length_set _ _ _
      · intro hn
        exact absurd hhas hn
      · rw [hred]
        exact hwf'
      · rw [hred]
        exact noDuplicatePairs_of_WF hwf'
  | none =>
    cases hB : mapFind? st.exceptionMap (p2, p1) with
    | some v =>
      have hmemB : ((p2, p1), v) ∈ st.exceptionMap := mapFind?_some hB
      have hvlt : v < st.exceptions.length := (w1 _ hmemB).1
      have hswap : sameUnordered (p2, p1) (p1, p2) := sortPair_swap p2 p1
      have hvp : sameUnordered (p1, p2) (epair (st.exceptions.getD v ⟨0, 0, 0⟩)) := by
        show sortPair (p1, p2) = _
        rw [← sortPair_swap p2 p1]
        exact (w1 _ hmemB).2
      have hhas : hasExceptionFor st p1 p2 := hasExceptionFor_iff.2 ⟨v, hvlt, hvp⟩
      cases replace with
      | false =>
        have hred : addException st p1 p2 c false =
            (st, .error ("SlicedPmeForce: There is already an exception for particles "
              ++ toString p1 ++ " and " ++ toString p2)) := by
          rw [addException, hA, hB]
          rfl
        refine ⟨?_, ?_, ?_, ?_⟩
        · intro _
          refine ⟨?_, ?_⟩
          · intro _
            rw [hred]
            exact ⟨rfl, ⟨_, rfl⟩⟩
          · intro h
            exact absurd h (by decide)
        · intro hn
          exact absurd hhas hn
        · rw [hred]
          exact hw
        · rw [hred]
          exact noDuplicatePairs_of_WF hw
      | true =>
        have hred : addException st p1 p2 c true =
            ({ st with
                exceptions := st.exceptions.set v ⟨p1, p2, c⟩
                exceptionMap := mapInsert (mapErase st.exceptionMap (p2, p1)) (p1, p2) v },
              .ok v) := by
          rw [addException, hA, hB]
          rfl
        have hwf' := ExceptionMapWF_replace st hw (p2, p1) v p1 p2 c hmemB hswap
        refine ⟨?_, ?_, ?_, ?_⟩
        · intro _
          refine ⟨?_, ?_⟩
          · intro h
            exact absurd h (by decide)
          · intro _
            refine ⟨v, hvlt, hvp, ?_, ?_, ?_⟩
            · rw [hred]
            · rw [hred]
            · rw [hred]
              exact List.length_set _ _ _
        · intro hn
          exact absurd hhas hn
        · rw [hred]
          exact hwf'
        · rw [hred]
          exact noDuplicatePairs_of_WF hwf'
    | none =>
      have hnot : ¬ hasExceptionFor st p1 p2 := by
        intro hhas
        obtain ⟨k, hk, hs⟩ := hasExceptionFor_iff.1 hhas
        obtain ⟨e, hem, heq⟩ := w2 k hk
        have hpe := (w1 e hem).2
        rw [heq] at hpe
        have hkey : sortPair e.1 = sortPair (p1, p2) := by
          rw [hpe, ← hs]
        obtain ⟨k', v'⟩ := e
        rcases sortPair_cases hkey with h | h
        · have hk1 : k' = (p1, p2) := h
          subst hk1
          exact mapFind?_none hA v' hem
        · have hk1 : k' = (p2, p1) := h
          subst hk1
          exact mapFind?_none hB v' hem
      have hred : addException st p1 p2 c replace =
          ({ st with
              exceptions := st.exceptions ++ [⟨p1, p2, c⟩]
              exceptionMap := mapInsert st.exceptionMap (p1, p2) st.exceptions.length },
            .ok st.exceptions.length) := by
        rw [addException, hA, hB]
      have hwf' := ExceptionMapWF_append st hw p1 p2 c hA hB
      refine ⟨?_, ?_, ?_, ?_⟩
      · intro h
        exact absurd h hnot
      · intro _
        rw [hred]
        exact ⟨rfl, rfl⟩
      · rw [hred]
        exact hwf'
      · rw [hred]
        exact noDuplicatePairs_of_WF hwf'

/-- Witness for `addException_spec`: a concrete well-formed one-exception
state, replacing the exception for the pair `{1, 0}` given in the reverse
registration order. -/
theorem addException_spec_witness :
    ExceptionMapWF
      { numSubsets := 1, particles := [], exceptions := [⟨0, 1, 2⟩],
        exceptionMap := [((0, 1), 0)], globalParameters := [],
        switchingParameters := [], switchingParameter := [1],
        switchParamDerivatives := [], particleOffsets := [], exceptionOffsets := [] } ∧
    AddExceptionSpec
      { numSubsets := 1, particles := [], exceptions := [⟨0, 1, 2⟩],
        exceptionMap := [((0, 1), 0)], globalParameters := [],
        switchingParameters := [], switchingParameter := [1],
        switchParamDerivatives := [], particleOffsets := [], exceptionOffsets := [] }
      1 0 5 true :=
  ⟨by decide, addException_spec _ (by decide) 1 0 5 true⟩

/-- A one-subset force on which one exception for the pair `{0, 1}` has been
registered through `addException`. -/
def exampleForceB : SlicedPmeForceState :=
  (addException
    { numSubsets := 1, particles := [], exceptions := [], exceptionMap := [],
      globalParameters := [], switchingParameters := [], switchingParameter := [1],
      switchParamDerivatives := [], particleOffsets := [], exceptionOffsets := [] }
    0 1 2 false).1

/-- `exampleForceB` after `setExceptionParameters(0, 2, 3, 5.0)`: the stored
exception now reads `(2, 3)` but the exception map still indexes it under the
pair `(0, 1)`. -/
def exampleForceC : SlicedPmeForceState :=
  (setExceptionParameters exampleForceB 0 2 3 5).1

/-- C5 counterexample: the claim quantifies over every state of the force,
but `setExceptionParameters` rewrites a stored pair without updating the
exception map, after which `addException` with `replace = false` — although
an exception for the unordered pair `{2, 3}` already exists — appends instead
of throwing, creating two exceptions for the same unordered particle pair. -/
theorem addException_claim_false :
    NoDuplicatePairs exampleForceC.exceptions ∧
    hasExceptionFor exampleForceC 2 3 ∧
    (addException exampleForceC 2 3 7 false).2 = .ok 1 ∧
    ¬ NoDuplicatePairs (addException exampleForceC 2 3 7 false).1.exceptions :=
  ⟨by decide, by decide, rfl, by decide⟩

/-! ### C7: binding a switching parameter to a slice -/

/-- The conclusion of the C7 claim at one state and argument tuple:
`addSwitchingParameter` throws when the slice already has a bound parameter,
throws when the named global parameter was never declared, and in both
failure cases leaves the force (in particular its switching-parameter list)
unchanged. -/
def AddSwitchingParameterSpec (st : SlicedPmeForceState) (parameter : String)
    (subset1 subset2 : Int) : Prop :=
  ((∃ sp ∈ st.switchingParameters, sp.slice = sliceIndex subset1.toNat subset2.toNat) →
    addSwitchingParameter st parameter subset1 subset2 =
      (st, .error "A switching parameter has already been defined for this slice")) ∧
  ((¬ ∃ sp ∈ st.switchingParameters, sp.slice = sliceIndex subset1.toNat subset2.toNat) →
    (∀ g ∈ st.globalParameters, g.name ≠ parameter) →
    addSwitchingParameter st parameter subset1 subset2 =
      (st, .error ("There is no global parameter called " ++ parameter)))

/-- C7: for valid subset ids, `addSwitchingParameter` fails when the slice of
`{subset1, subset2}` already has a bound switching parameter, and fails when
`parameter` is not a declared global parameter; both failures leave the
switching-parameter list unchanged. -/
theorem addSwitchingParameter_spec (st : SlicedPmeForceState) (parameter : String)
    (subset1 subset2 : Int)
    (h1 : 0 ≤ subset1 ∧ subset1 < st.numSubsets)
    (h2 : 0 ≤ subset2 ∧ subset2 < st.numSubsets) :
    AddSwitchingParameterSpec st parameter subset1 subset2 := by
  have hn1 : ¬(subset1 < 0 ∨ st.numSubsets ≤ subset1) := by omega
  have hn2 : ¬(subset2 < 0 ∨ st.numSubsets ≤ subset2) := by omega
  constructor
  · intro hdup
    have hany : st.switchingParameters.any
        (fun sp => sp.slice == sliceIndex subset1.toNat subset2.toNat) = true := by
      rw [List.any_eq_true]
      obtain ⟨sp, hsp, he⟩ := hdup
      exact ⟨sp, hsp, by rw [beq_iff_eq]; exact he⟩
    simp only [addSwitchingParameter]
    rw [if_neg hn1, if_neg hn2, hany]
    rfl
  · intro hdup hname
    have hany : st.switchingParameters.any
        (fun sp => sp.slice == sliceIndex subset1.toNat subset2.toNat) = false := by
      rw [List.any_eq_false]
      intro sp hsp
      rw [beq_iff_eq]
      intro he
      exact hdup ⟨sp, hsp, he⟩
    have hfind : st.globalParameters.findIdx? (fun g => g.name == parameter) = none := by
      rw [List.findIdx?_eq_none_iff]
      intro g hg
      rw [beq_eq_false_iff_ne]
      exact hname g hg
    simp only [addSwitchingParameter, getGlobalParameterIndex]
    rw [if_neg hn1, if_neg hn2, hany, hfind]
    rfl

/-- Witness for `addSwitchingParameter_spec`: a two-subset force with one
declared global parameter and one bound switching parameter. -/
theorem addSwitchingParameter_spec_witness :
    ((0:Int) ≤ 0 ∧ (0:Int) < 2) ∧ ((0:Int) ≤ 1 ∧ (1:Int) < 2) ∧
    AddSwitchingParameterSpec
      { numSubsets := 2, particles := [], exceptions := [], exceptionMap := [],
        globalParameters := [⟨"lambda", 1⟩],
        switchingParameters := [mkSwitchingParameterInfo 0 0 1],
        switchingParameter := [1, 1, 1], switchParamDerivatives := [],
        particleOffsets := [], exceptionOffsets := [] }
      "mu" 0 1 :=
  ⟨by decide, by decide, addSwitchingParameter_spec _ "mu" 0 1 (by decide) (by decide)⟩

/-! ## CUDA kernel host code: coupling parameters and slice lambdas (C6)

Host-side bookkeeping of `CudaCalcSlicedPmeForceKernel`
(CudaPmeSlicingKernels.cpp:226-246 in `initialize`, 607-628 in `execute`).
-/

theorem getD_replicate {α : Type} (n k : ℕ) (x d : α) (h : k < n) :
    (List.replicate n x).getD k d = x := by
  induction n generalizing k with
  | zero => omega
  | succ n ih =>
    cases k with
    | zero => rfl
    | succ k =>
      show (List.replicate n x).getD k d = x
      exact ih k (by omega)

theorem getD_map_range {α : Type} (n k : ℕ) (f : ℕ → α) (d : α) (h : k < n) :
    ((List.range n).map f).getD k d = f k := by
  have hl : k < ((List.range n).map f).length := by simpa using h
  rw [getD_eq_get _ _ _ hl, List.get_map]
  congr 1
  exact List.get_range _ _

/-- Host-side mirrors of the coupling-parameter state of
`CudaCalcSlicedPmeForceKernel` (member variables `coupParamNames`,
`coupParamValues`, `sliceCoupParamIndex`, `sliceLambdaVec`). -/
structure CoupState where
  coupParamNames : List String
  coupParamValues : List ℚ
  sliceCoupParamIndex : List Int
  sliceLambdaVec : List ℚ
  deriving DecidableEq

/-- CudaPmeSlicingKernels.cpp:231-235: intern a coupling-parameter name into
`coupParamNames` (`std::find` over the interned names; a fresh name is pushed
with initial cached value `1.0`), returning the updated lists and the index. -/
def internParam (names : List String) (values : List ℚ) (param : String) :
    List String × List ℚ × ℕ :=
  match names.findIdx? (fun n => n == param) with
  | some i => (names, values, i)
  | none => (names ++ [param], values ++ [1], names.length)

/-- The body of the loop at CudaPmeSlicingKernels.cpp:227-237: intern the
parameter name of one retrieved coupling parameter `(param, s1, s2)` and bind
its index to slice `s2*(s2+1)/2+s1`. -/
def initCouplingStep (s : CoupState) (c : String × ℕ × ℕ) : CoupState :=
  let r := internParam s.coupParamNames s.coupParamValues c.1
  { s with
    coupParamNames := r.1
    coupParamValues := r.2.1
    sliceCoupParamIndex :=
      s.sliceCoupParamIndex.set (c.2.2 * (c.2.2 + 1) / 2 + c.2.1) (r.2.2 : Int) }

/-- CudaPmeSlicingKernels.cpp:226-246: `sliceCoupParamIndex` starts as
`numSlices` copies of `-1`, the coupling parameters of the force are folded
in, and `sliceLambdaVec` starts as `numSlices` copies of `1.0`. -/
def initCoupling (numSlices : ℕ) (coups : List (String × ℕ × ℕ)) : CoupState :=
  coups.foldl initCouplingStep
    { coupParamNames := []
      coupParamValues := []
      sliceCoupParamIndex := List.replicate numSlices (-1)
      sliceLambdaVec := List.replicate numSlices 1 }

/-- CudaPmeSlicingKernels.cpp:607-628 (`execute`): poll the context values of
the interned coupling parameters; when any changed, overwrite the cached
values and refresh `sliceLambdaVec` slice by slice, skipping (leaving
untouched) every slice whose `sliceCoupParamIndex` entry is `-1`. -/
def updateCoupling (s : CoupState) (contextValue : String → ℚ) : CoupState :=
  let newValues := s.coupParamNames.map contextValue
  if newValues ≠ s.coupParamValues then
    { s with
      coupParamValues := newValues
      sliceLambdaVec := (List.range s.sliceLambdaVec.length).map (fun slice =>
        if s.sliceCoupParamIndex.getD slice (-1) = -1 then s.sliceLambdaVec.getD slice 1
        else newValues.getD (s.sliceCoupParamIndex.getD slice (-1)).toNat 0) }
  else s

theorem foldl_initCouplingStep_lambda (l : List (String × ℕ × ℕ)) :
    ∀ s : CoupState, (l.foldl initCouplingStep s).sliceLambdaVec = s.sliceLambdaVec := by
  induction l with
  | nil => intro s; rfl
  | cons c l ih => intro s; exact ih (initCouplingStep s c)

theorem foldl_initCouplingStep_unbound (l : List (String × ℕ × ℕ)) :
    ∀ (s : CoupState) (slice : ℕ),
      (∀ c ∈ l, c.2.2 * (c.2.2 + 1) / 2 + c.2.1 ≠ slice) →
      (l.foldl initCouplingStep s).sliceCoupParamIndex.getD slice (-1)
        = s.sliceCoupParamIndex.getD slice (-1) := by
  induction l with
  | nil => intro s slice _; rfl
  | cons c l ih =>
    intro s slice hl
    rw [List.foldl_cons, ih (initCouplingStep s c) slice
      (fun c' hc' => hl c' (List.mem_cons_of_mem c hc'))]
    show (s.sliceCoupParamIndex.set _ _).getD slice (-1) = _
    exact getD_set_ne _ _ _ _ _ (fun h => hl c (List.mem_cons_self c l) (h ▸ rfl))

theorem updateCoupling_index (s : CoupState) (f : String → ℚ) :
    (updateCoupling s f).sliceCoupParamIndex = s.sliceCoupParamIndex := by
  simp only [updateCoupling]
  split <;> rfl

theorem updateCoupling_lambdaLength (s : CoupState) (f : String → ℚ) :
    (updateCoupling s f).sliceLambdaVec.length = s.sliceLambdaVec.length := by
  simp only [updateCoupling]
  split
  · show ((List.range s.sliceLambdaVec.length).map _).length = _
    simp
  · rfl

theorem updateCoupling_unbound (s : CoupState) (f : String → ℚ) (slice : ℕ)
    (hlen : slice < s.sliceLambdaVec.length)
    (hui : s.sliceCoupParamIndex.getD slice (-1) = -1) :
    (updateCoupling s f).sliceLambdaVec.getD slice 1 = s.sliceLambdaVec.getD slice 1 := by
  simp only [updateCoupling]
  split
  · show ((List.range s.sliceLambdaVec.length).map _).getD slice 1 = _
    rw [getD_map_range _ _ _ _ hlen]
    rw [if_pos hui]
  · rfl

theorem foldl_updateCoupling_unbound (updates : List (String → ℚ)) :
    ∀ (s : CoupState) (slice : ℕ), slice < s.sliceLambdaVec.length →
      s.sliceCoupParamIndex.getD slice (-1) = -1 →
      s.sliceLambdaVec.getD slice 1 = 1 →
      (updates.foldl updateCoupling s).sliceLambdaVec.getD slice 1 = 1 := by
  induction updates with
  | nil => intro s slice _ _ h1; exact h1
  | cons f fs ih =>
    intro s slice hlen hui h1
    rw [List.foldl_cons]
    refine ih (updateCoupling s f) slice ?_ ?_ ?_
    · rw [updateCoupling_lambdaLength]
      exact hlen
    · rw [updateCoupling_index]
      exact hui
    · rw [updateCoupling_unbound s f slice hlen hui]
      exact h1

/-- C6: every slice with no bound coupling (switching) parameter keeps an
effective lambda of exactly 1.0: the API constructor initialises all
`numSubsets*(numSubsets+1)/2` per-slice scaling values to 1.0; kernel
initialisation sets every slice lambda to 1.0 and leaves
`sliceCoupParamIndex` at `-1` for every slice no coupling parameter targets;
and evaluation-time updates rewrite only slices whose index entry is not
`-1`, so after any sequence of updates an unbound slice's lambda is still 1. -/
theorem unboundSliceLambda_one (numSubsets : Int) (hS : 1 ≤ numSubsets)
    (numSlices : ℕ) (coups : List (String × ℕ × ℕ)) (updates : List (String → ℚ))
    (slice : ℕ) (hslice : slice < numSlices)
    (hunbound : ∀ c ∈ coups, c.2.2 * (c.2.2 + 1) / 2 + c.2.1 ≠ slice) :
    (∃ st, mkSlicedPmeForce numSubsets = .ok st ∧
      st.switchingParameter.length = (numSubsets * (numSubsets + 1) / 2).toNat ∧
      ∀ v ∈ st.switchingParameter, v = 1) ∧
    (initCoupling numSlices coups).sliceLambdaVec = List.replicate numSlices 1 ∧
    (initCoupling numSlices coups).sliceCoupParamIndex.getD slice (-1) = -1 ∧
    (updates.foldl updateCoupling (initCoupling numSlices coups)).sliceLambdaVec.getD
      slice 1 = 1 := by
  have hinit1 : (initCoupling numSlices coups).sliceLambdaVec
      = List.replicate numSlices 1 :=
    foldl_initCouplingStep_lambda coups _
  have hinit2 : (initCoupling numSlices coups).sliceCoupParamIndex.getD slice (-1)
      = -1 := by
    rw [initCoupling, foldl_initCouplingStep_unbound coups _ slice hunbound]
    exact getD_replicate _ _ _ _ hslice
  refine ⟨?_, hinit1, hinit2, ?_⟩
  · refine ⟨_, by rw [mkSlicedPmeForce, if_neg (by omega)], by simp, ?_⟩
    intro v hv
    exact List.eq_of_mem_replicate hv
  · refine foldl_updateCoupling_unbound updates _ slice ?_ hinit2 ?_
    · rw [hinit1]
      simpa using hslice
    · rw [hinit1]
      exact getD_replicate _ _ _ _ hslice

/-- Witness for `unboundSliceLambda_one`: two subsets, one coupling parameter
bound to slice `(0,1)` (linear index 1), probing the diagonal slice `2` after
one parameter update. -/
theorem unboundSliceLambda_one_witness :
    (1 : Int) ≤ 2 ∧ (2 : ℕ) < 3 ∧
    (∀ c ∈ [("lambda", 0, 1)], c.2.2 * (c.2.2 + 1) / 2 + c.2.1 ≠ 2) ∧
    ((∃ st, mkSlicedPmeForce 2 = .ok st ∧
      st.switchingParameter.length = ((2 : Int) * (2 + 1) / 2).toNat ∧
      ∀ v ∈ st.switchingParameter, v = 1) ∧
    (initCoupling 3 [("lambda", 0, 1)]).sliceLambdaVec = List.replicate 3 1 ∧
    (initCoupling 3 [("lambda", 0, 1)]).sliceCoupParamIndex.getD 2 (-1) = -1 ∧
    ([fun _ => (7 : ℚ)].foldl updateCoupling
      (initCoupling 3 [("lambda", 0, 1)])).sliceLambdaVec.getD 2 1 = 1) :=
  ⟨by decide, by decide, by decide,
    unboundSliceLambda_one 2 (by decide) 3 [("lambda", 0, 1)] [fun _ => (7 : ℚ)] 2
      (by decide) (by decide)⟩

/-! ## CUDA kernel host code: reported reciprocal energy (C1)

`CudaCalcSlicedPmeForceKernel::AddEnergyPostComputation`
(CudaPmeSlicingKernels.cpp:117-136) launches the `addEnergy` kernel over
`bufferSize` work items with arguments `(pmeEnergyBuffer, energyBuffer,
sliceLambda, bufferSize)` whenever energy was requested and the force group
is selected.  `pmeEnergyBuffer` holds `numSlices * bufferSize` entries,
slice-major (initialize, lines 319-321).
-/

theorem list_sum_eq_sum_getD (l : List ℚ) :
    l.sum = ∑ i ∈ Finset.range l.length, l.getD i 0 := by
  induction l with
  | nil => simp
  | cons x xs ih =>
    rw [List.sum_cons, List.length_cons, Finset.sum_range_succ', ih]
    simp only [List.getD_cons_succ, List.getD_cons_zero]
    ring

theorem sum_map_range (n : ℕ) (f : ℕ → ℚ) :
    ((List.range n).map f).sum = ∑ i ∈ Finset.range n, f i := by
  rw [list_sum_eq_sum_getD]
  have hl : ((List.range n).map f).length = n := by simp
  rw [hl]
  exact Finset.sum_congr rfl (fun i hi =>
    getD_map_range n i f 0 (Finset.mem_range.1 hi))

theorem foldl_add_eq_sum (m : ℕ) (h : ℕ → ℚ) :
    ∀ a : ℚ, (List.range m).foldl (fun acc s => acc + h s) a
      = a + ∑ s ∈ Finset.range m, h s := by
  induction m with
  | zero => intro a; simp
  | succ m ih =>
    intro a
    rw [List.range_succ, List.foldl_append, ih a, List.foldl_cons, List.foldl_nil,
      Finset.sum_range_succ]
    ring

/-- Modelled from the spec: the body of the `addEnergy` kernel is in
`CommonPmeSlicingKernelSources` (generated from a `.cc` kernel-source file
that is not among the given sources).  Per the spec (§4.8), "the reported
total reciprocal energy is `Σ_slice lambda(slice) * rawEnergy(slice)`"; with
the slice-major buffer layout of the host code, work item `i < bufferSize`
adds `Σ_slice sliceLambda[slice] * pmeEnergyBuffer[slice*bufferSize+i]` into
its slot of the context energy buffer. -/
def addEnergyKernel (numSlices bufferSize : ℕ)
    (pmeEnergyBuffer sliceLambda energyBuffer : List ℚ) : List ℚ :=
  (List.range energyBuffer.length).map (fun i =>
    if i < bufferSize then
      energyBuffer.getD i 0 + (List.range numSlices).foldl
        (fun acc slice => acc +
          sliceLambda.getD slice 0 * pmeEnergyBuffer.getD (slice * bufferSize + i) 0) 0
    else energyBuffer.getD i 0)

/-- `AddEnergyPostComputation::computeForceAndEnergy`
(CudaPmeSlicingKernels.cpp:122-127): run the `addEnergy` kernel exactly when
energy is requested and the kernel's force group is in `groups`. -/
def addEnergyPostComputation (includeEnergy : Bool) (groups forceGroup : ℕ)
    (numSlices bufferSize : ℕ)
    (pmeEnergyBuffer sliceLambda energyBuffer : List ℚ) : List ℚ :=
  if includeEnergy ∧ groups &&& (1 <<< forceGroup) ≠ 0 then
    addEnergyKernel numSlices bufferSize pmeEnergyBuffer sliceLambda energyBuffer
  else energyBuffer

/-- The raw (unscaled) accumulated energy of one slice: the sum of that
slice's segment of the per-slice energy buffer. -/
def rawSliceEnergy (bufferSize : ℕ) (pmeEnergyBuffer : List ℚ) (slice : ℕ) : ℚ :=
  ∑ i ∈ Finset.range bufferSize, pmeEnergyBuffer.getD (slice * bufferSize + i) 0

/-- C1: whenever energy is requested (and the force group is selected), the
energy that the reciprocal-space post-computation adds to the context energy
buffer is exactly `Σ_slice lambda(slice) * rawEnergy(slice)`. -/
theorem addEnergy_total (includeEnergy : Bool) (groups forceGroup : ℕ)
    (numSlices bufferSize : ℕ) (pmeEnergyBuffer sliceLambda energyBuffer : List ℚ)
    (hE : includeEnergy = true) (hG : groups &&& (1 <<< forceGroup) ≠ 0)
    (hlen : energyBuffer.length = bufferSize) :
    (addEnergyPostComputation includeEnergy groups forceGroup numSlices bufferSize
        pmeEnergyBuffer sliceLambda energyBuffer).sum
      = energyBuffer.sum
        + ∑ slice ∈ Finset.range numSlices,
            sliceLambda.getD slice 0 * rawSliceEnergy bufferSize pmeEnergyBuffer slice := by
  subst hE
  rw [addEnergyPostComputation, if_pos ⟨rfl, hG⟩, addEnergyKernel, sum_map_range]
  have hterm : ∀ i ∈ Finset.range energyBuffer.length,
      (if i < bufferSize then
        energyBuffer.getD i 0 + (List.range numSlices).foldl
          (fun acc slice => acc +
            sliceLambda.getD slice 0 * pmeEnergyBuffer.getD (slice * bufferSize + i) 0) 0
      else energyBuffer.getD i 0)
      = energyBuffer.getD i 0 + ∑ slice ∈ Finset.range numSlices,
          sliceLambda.getD slice 0 * pmeEnergyBuffer.getD (slice * bufferSize + i) 0 := by
    intro i hi
    rw [if_pos (hlen ▸ Finset.mem_range.1 hi), foldl_add_eq_sum]
    ring
  rw [Finset.sum_congr rfl hterm, Finset.sum_add_distrib, ← list_sum_eq_sum_getD, hlen,
    Finset.sum_comm]
  congr 1
  refine Finset.sum_congr rfl (fun slice _ => ?_)
  rw [rawSliceEnergy, Finset.mul_sum]

/-- Witness for `addEnergy_total`: three slices, two work items per slice. -/
theorem addEnergy_total_witness :
    true = true ∧ (1 &&& (1 <<< 0) : ℕ) ≠ 0 ∧ ([(10 : ℚ), 20]).length = 2 ∧
    (addEnergyPostComputation true 1 0 3 2 [1, 2, 3, 4, 5, 6] [1, 1/2, 0] [10, 20]).sum
      = ([(10 : ℚ), 20]).sum
        + ∑ slice ∈ Finset.range 3,
            ([(1 : ℚ), 1/2, 0]).getD slice 0 * rawSliceEnergy 2 [1, 2, 3, 4, 5, 6] slice :=
  ⟨rfl, by decide, by decide,
    addEnergy_total true 1 0 3 2 [1, 2, 3, 4, 5, 6] [1, 1/2, 0] [10, 20]
      rfl (by decide) (by decide)⟩

/-! ## CUDA kernel host code: Ewald self-energy (C4)

`CudaCalcSlicedPmeForceKernel::initialize` (CudaPmeSlicingKernels.cpp:261-268)
accumulates each particle's squared charge into its subset's slot, then
scales each slot by `-ONE_4PI_EPS0*alpha/sqrt(pi)`;
`execute` (lines 615-628 and 673-675) recomputes the reported total as
`ewaldSelfEnergy = Σ_j sliceLambdaVec[j*(j+3)/2] * subsetSelfEnergy[j]`.
Charges here are reals and a particle is its `(charge, subset)` pair.
-/

/-- The accumulation loop of CudaPmeSlicingKernels.cpp:263-264:
starting from `numSubsets` zero slots,
`subsetSelfEnergy[subset_i] += charge_i * charge_i` for every particle.
The scalar type is kept generic so the definitions stay executable; the
theorems instantiate it with `ℝ`. -/
def accumSubsetSq {α : Type} [Field α] (numSubsets : ℕ)
    (particles : List (α × ℕ)) : List α :=
  particles.foldl (fun vec p => vec.set p.2 (vec.getD p.2 0 + p.1 * p.1))
    (List.replicate numSubsets 0)

/-- The scaling loop of CudaPmeSlicingKernels.cpp:265-267:
`subsetSelfEnergy[j] *= selfEnergyScale`, where the code's scale factor is
`-ONE_4PI_EPS0*alpha/sqrt(M_PI)` (instantiated in the C4 theorem). -/
def subsetSelfEnergyVec {α : Type} [Field α] (selfEnergyScale : α) (numSubsets : ℕ)
    (particles : List (α × ℕ)) : List α :=
  (accumSubsetSq numSubsets particles).map (fun e => e * selfEnergyScale)

/-- The accumulation at CudaPmeSlicingKernels.cpp:621-623 (and 673-675):
`ewaldSelfEnergy = Σ_j sliceLambdaVec[j*(j+3)/2] * subsetSelfEnergy[j]`. -/
def ewaldSelfEnergy {α : Type} [Field α] (numSubsets : ℕ)
    (sliceLambdaVec subsetSelfEnergy : List α) : α :=
  ∑ j ∈ Finset.range numSubsets,
    sliceLambdaVec.getD (j * (j + 3) / 2) 0 * subsetSelfEnergy.getD j 0

theorem diagSlice_eq (j : ℕ) : j * (j + 3) / 2 = sliceIndex j j := by
  rw [sliceIndex_of_le (le_refl j), tri,
    show j * (j + 3) = j * (j + 1) + j * 2 by ring,
    Nat.add_mul_div_right _ _ (by norm_num : (0:ℕ) < 2)]

theorem getD_replicate_real (n k : ℕ) (x d : ℝ) (h : k < n) :
    (List.replicate n x).getD k d = x := getD_replicate n k x d h

theorem accumSubsetSq_length {α : Type} [Field α] (numSubsets : ℕ)
    (particles : List (α × ℕ)) :
    (accumSubsetSq numSubsets particles).length = numSubsets := by
  rw [accumSubsetSq]
  suffices h : ∀ (ps : List (α × ℕ)) (vec : List α),
      (ps.foldl (fun vec p => vec.set p.2 (vec.getD p.2 0 + p.1 * p.1)) vec).length
        = vec.length by
    rw [h]
    exact List.length_replicate _ _
  intro ps
  induction ps with
  | nil => intro vec; rfl
  | cons p ps ih =>
    intro vec
    rw [List.foldl_cons, ih]
    exact List.length_set _ _ _

theorem foldl_accum_getD {α : Type} [Field α] (ps : List (α × ℕ)) :
    ∀ (vec : List α) (j : ℕ), j < vec.length →
      (ps.foldl (fun vec p => vec.set p.2 (vec.getD p.2 0 + p.1 * p.1)) vec).getD j 0
        = vec.getD j 0 + ((ps.filter (fun p => p.2 == j)).map (fun p => p.1 * p.1)).sum := by
  induction ps with
  | nil =>
    intro vec j _
    simp
  | cons p ps ih =>
    intro vec j hj
    rw [List.foldl_cons]
    rw [ih (vec.set p.2 (vec.getD p.2 0 + p.1 * p.1)) j (by rw [List.length_set]; exact hj)]
    by_cases hpj : p.2 = j
    · subst hpj
      rw [getD_set_self _ _ _ _ hj]
      rw [List.filter_cons_of_pos (by simp), List.map_cons, List.sum_cons]
      ring
    · rw [getD_set_ne _ _ _ _ _ (fun h => hpj h.symm)]
      rw [List.filter_cons_of_neg (by simpa using hpj)]

/-- C4: each subset's self-energy equals
`-ONE_4PI_EPS0*alpha/sqrt(pi) * Σ charge²` over the particles assigned to it,
and the total self-energy reported with the reciprocal energy is
`Σ_j lambda(diagonal slice of j) * selfEnergy(j)`, the diagonal slice of `j`
being the slice of linear index `j*(j+1)/2 + j` (the code's `j*(j+3)/2`). -/
theorem selfEnergy_spec (ONE_4PI_EPS0 alpha : ℝ) (numSubsets : ℕ)
    (particles : List (ℝ × ℕ)) (sliceLambdaVec : List ℝ)
    (_hsub : ∀ p ∈ particles, p.2 < numSubsets) :
    (∀ j, j < numSubsets →
      (subsetSelfEnergyVec (-ONE_4PI_EPS0 * alpha / Real.sqrt Real.pi) numSubsets particles).getD j 0
        = -ONE_4PI_EPS0 * alpha / Real.sqrt Real.pi
          * ((particles.filter (fun p => p.2 == j)).map (fun p => p.1 ^ 2)).sum) ∧
    ewaldSelfEnergy numSubsets sliceLambdaVec
        (subsetSelfEnergyVec (-ONE_4PI_EPS0 * alpha / Real.sqrt Real.pi) numSubsets particles)
      = ∑ j ∈ Finset.range numSubsets,
          sliceLambdaVec.getD (sliceIndex j j) 0
            * (subsetSelfEnergyVec (-ONE_4PI_EPS0 * alpha / Real.sqrt Real.pi) numSubsets particles).getD j 0 := by
  have hget : ∀ j, j < numSubsets →
      (subsetSelfEnergyVec (-ONE_4PI_EPS0 * alpha / Real.sqrt Real.pi) numSubsets particles).getD j 0
        = -ONE_4PI_EPS0 * alpha / Real.sqrt Real.pi
          * ((particles.filter (fun p => p.2 == j)).map (fun p => p.1 ^ 2)).sum := by
    intro j hj
    have hjl : j < (accumSubsetSq numSubsets particles).length := by
      rw [accumSubsetSq_length]
      exact hj
    rw [subsetSelfEnergyVec, getD_eq_get _ _ _ (by simpa using hjl), List.get_map]
    rw [← getD_eq_get _ _ 0 hjl]
    rw [accumSubsetSq, foldl_accum_getD particles _ j (by simpa using hj)]
    rw [getD_replicate_real _ _ _ _ hj]
    have hsq : (particles.filter (fun p => p.2 == j)).map (fun p => p.1 ^ 2)
        = (particles.filter (fun p => p.2 == j)).map (fun p => p.1 * p.1) := by
      refine List.map_congr_left (fun p _ => ?_)
      ring
    rw [hsq]
    ring
  refine ⟨hget, ?_⟩
  rw [ewaldSelfEnergy]
  refine Finset.sum_congr rfl (fun j _ => ?_)
  rw [diagSlice_eq]

/-- Witness for `selfEnergy_spec`: two subsets with three particles. -/
theorem selfEnergy_spec_witness :
    (∀ p ∈ [((1 : ℝ), 0), ((2 : ℝ), 1), ((3 : ℝ), 0)], p.2 < 2) ∧
    ((∀ j, j < 2 →
      (subsetSelfEnergyVec (-1 * 1 / Real.sqrt Real.pi) 2
          [((1 : ℝ), 0), ((2 : ℝ), 1), ((3 : ℝ), 0)]).getD j 0
        = -1 * 1 / Real.sqrt Real.pi
          * (([((1 : ℝ), 0), ((2 : ℝ), 1), ((3 : ℝ), 0)].filter
              (fun p => p.2 == j)).map (fun p => p.1 ^ 2)).sum) ∧
    ewaldSelfEnergy 2 [1, 0, 1]
        (subsetSelfEnergyVec (-1 * 1 / Real.sqrt Real.pi) 2 [((1 : ℝ), 0), ((2 : ℝ), 1), ((3 : ℝ), 0)])
      = ∑ j ∈ Finset.range 2,
          ([(1 : ℝ), 0, 1]).getD (sliceIndex j j) 0
            * (subsetSelfEnergyVec (-1 * 1 / Real.sqrt Real.pi) 2
                [((1 : ℝ), 0), ((2 : ℝ), 1), ((3 : ℝ), 0)]).getD j 0) :=
  ⟨by decide, selfEnergy_spec 1 1 2 _ [1, 0, 1] (by decide)⟩

/-! ## CUDA kernel host code: copyParametersToContext (C8)

`CudaCalcSlicedPmeForceKernel::copyParametersToContext`
(CudaPmeSlicingKernels.cpp:782-850) validates the new force against the
snapshot taken by `initialize` (particle count, and the per-context segment
of "non-excluded" exceptions — those with non-zero `chargeProd` or carrying a
charge offset), then re-uploads the numeric arrays.
-/

/-- Indices of the non-excluded exceptions of a force (the list `exceptions`
built at CudaPmeSlicingKernels.cpp:173-182 and 788-803): exceptions with a
non-zero `chargeProd` or with a registered charge offset. -/
def nonExcludedExceptions (st : SlicedPmeForceState) : List ℕ :=
  (List.range st.exceptions.length).filter (fun i =>
    decide ((st.exceptions.getD i ⟨0, 0, 0⟩).chargeProd ≠ 0
      ∨ (i : Int) ∈ st.exceptionOffsets.map (fun o => o.exception)))

/-- The per-context contiguous segment
`[contextIndex*n/numContexts, (contextIndex+1)*n/numContexts)` of a list
(CudaPmeSlicingKernels.cpp:804-807). -/
def segment (l : List ℕ) (numContexts contextIndex : ℕ) : List ℕ :=
  (l.drop (contextIndex * l.length / numContexts)).take
    ((contextIndex + 1) * l.length / numContexts
      - contextIndex * l.length / numContexts)

/-- The particle pair stored in exception `i` of a force. -/
def exceptionPairAt (st : SlicedPmeForceState) (i : ℕ) : Int × Int :=
  ((st.exceptions.getD i ⟨0, 0, 0⟩).particle1, (st.exceptions.getD i ⟨0, 0, 0⟩).particle2)

/-- The particle pairs of this context's segment of non-excluded exceptions. -/
def segPairs (st : SlicedPmeForceState) (numContexts contextIndex : ℕ) :
    List (Int × Int) :=
  (segment (nonExcludedExceptions st) numContexts contextIndex).map (exceptionPairAt st)

/-- The parts of the CUDA kernel state that `copyParametersToContext` reads
or writes: the initialization-time snapshot (`cu.getNumAtoms()`,
`exceptionPairs`) and the uploaded numeric arrays. -/
structure PmeKernelState where
  numAtoms : ℕ
  exceptionPairs : List (Int × Int)
  baseParticleCharges : List ℚ
  subsets : List Int
  baseExceptionChargeProds : List ℚ
  deriving DecidableEq

/-- The snapshot taken by `initialize`
(CudaPmeSlicingKernels.cpp:186, 479-506). -/
def initKernelSnapshot (st : SlicedPmeForceState) (numContexts contextIndex : ℕ) :
    PmeKernelState :=
  { numAtoms := st.particles.length
    exceptionPairs := segPairs st numContexts contextIndex
    baseParticleCharges := st.particles.map (fun p => p.charge)
    subsets := st.particles.map (fun p => p.subset)
    baseExceptionChargeProds :=
      (segment (nonExcludedExceptions st) numContexts contextIndex).map
        (fun i => (st.exceptions.getD i ⟨0, 0, 0⟩).chargeProd) }

/-- `CudaCalcSlicedPmeForceKernel::copyParametersToContext`
(CudaPmeSlicingKernels.cpp:782-850): reject a changed particle count; rebuild
the non-excluded exception segment and reject a changed count; upload the
per-particle arrays; then walk the segment, rejecting any position whose
particle pair differs from the snapshot, and finally upload the new base
chargeProds.  As in the C++ (which throws), the state component carries
whatever had been uploaded before the failure. -/
def copyParametersToContext (ks : PmeKernelState) (st : SlicedPmeForceState)
    (numContexts contextIndex : ℕ) : PmeKernelState × Except String Unit :=
  if st.particles.length ≠ ks.numAtoms then
    (ks, .error "updateParametersInContext: The number of particles has changed")
  else
    let seg := segment (nonExcludedExceptions st) numContexts contextIndex
    if seg.length ≠ ks.exceptionPairs.length then
      (ks, .error "updateParametersInContext: The set of non-excluded exceptions has changed")
    else
      let ks1 := { ks with
        baseParticleCharges := st.particles.map (fun p => p.charge)
        subsets := st.particles.map (fun p => p.subset) }
      if (List.range seg.length).any (fun i =>
          decide (ks.exceptionPairs.getD i (0, 0) ≠ exceptionPairAt st (seg.getD i 0))) then
        (ks1, .error "updateParametersInContext: The set of non-excluded exceptions has changed")
      else
        let newProds := seg.map (fun i => (st.exceptions.getD i ⟨0, 0, 0⟩).chargeProd)
        ({ ks1 with baseExceptionChargeProds := newProds }, .ok ())

theorem getD_map_of_lt {α β : Type} (l : List α) (f : α → β) (i : ℕ) (d : α) (d' : β)
    (h : i < l.length) : (l.map f).getD i d' = f (l.getD i d) := by
  rw [getD_eq_get _ _ _ (by simpa using h), List.get_map, getD_eq_get _ _ d h]

theorem list_eq_of_getD {α : Type} (l l' : List α) (d : α)
    (hlen : l.length = l'.length) (h : ∀ i, i < l.length → l.getD i d = l'.getD i d) :
    l = l' := by
  refine List.ext_get hlen (fun n h1 h2 => ?_)
  rw [← getD_eq_get l n d h1, ← getD_eq_get l' n d h2]
  exact h n h1

/-- The new base chargeProd array uploaded by a successful
`copyParametersToContext`. -/
def newChargeProds (st : SlicedPmeForceState) (nc ci : ℕ) : List ℚ :=
  (segment (nonExcludedExceptions st) nc ci).map
    (fun i => (st.exceptions.getD i ⟨0, 0, 0⟩).chargeProd)

/-- The conclusion of the C8 claim for one initialization force `st0`, one
new force `st` and one context: a changed particle count fails with the
particle-count error; a change of the non-excluded exception segment (in
count or in its particle pairs) fails; and a successful call leaves the
initialization-time shape untouched, updating only the numeric arrays. -/
def CopyParametersSpec (st0 st : SlicedPmeForceState) (nc ci : ℕ) : Prop :=
  (st.particles.length ≠ st0.particles.length →
    (copyParametersToContext (initKernelSnapshot st0 nc ci) st nc ci).2
      = .error "updateParametersInContext: The number of particles has changed") ∧
  (segPairs st nc ci ≠ segPairs st0 nc ci →
    ∃ msg, (copyParametersToContext (initKernelSnapshot st0 nc ci) st nc ci).2
      = .error msg) ∧
  ((copyParametersToContext (initKernelSnapshot st0 nc ci) st nc ci).2 = .ok () →
    st.particles.length = st0.particles.length ∧
    segPairs st nc ci = segPairs st0 nc ci ∧
    (copyParametersToContext (initKernelSnapshot st0 nc ci) st nc ci).1
      = { numAtoms := st0.particles.length
          exceptionPairs := segPairs st0 nc ci
          baseParticleCharges := st.particles.map (fun p => p.charge)
          subsets := st.particles.map (fun p => p.subset)
          baseExceptionChargeProds := newChargeProds st nc ci })

/-- C8: `copyParametersToContext` fails if the particle count changed since
initialization, fails if the set of non-excluded exceptions changed in count
or in its particle pairs, and on success only the numeric parameter arrays
are updated. -/
theorem copyParametersToContext_spec (st0 st : SlicedPmeForceState) (nc ci : ℕ) :
    CopyParametersSpec st0 st nc ci := by
  set ks := initKernelSnapshot st0 nc ci with hks
  have hksA : ks.numAtoms = st0.particles.length := rfl
  have hksP : ks.exceptionPairs = segPairs st0 nc ci := rfl
  by_cases hcnt : st.particles.length ≠ ks.numAtoms
  · have hred : (copyParametersToContext ks st nc ci).2 =
        .error "updateParametersInContext: The number of particles has changed" := by
      simp only [copyParametersToContext]
      rw [if_pos hcnt]
    refine ⟨fun _ => hred, fun _ => ⟨_, hred⟩, fun hok => ?_⟩
    rw [hred] at hok
    cases hok
  · have hcnt' : st.particles.length = st0.particles.length := by
      rw [← hksA]
      omega
    by_cases hseg : (segment (nonExcludedExceptions st) nc ci).length
        ≠ ks.exceptionPairs.length
    · have hred : (copyParametersToContext ks st nc ci).2 =
          .error
            "updateParametersInContext: The set of non-excluded exceptions has changed" := by
        simp only [copyParametersToContext]
        rw [if_neg hcnt, if_pos hseg]
      refine ⟨fun h => absurd (hksA ▸ h) hcnt, fun _ => ⟨_, hred⟩, fun hok => ?_⟩
      rw [hred] at hok
      cases hok
    · have hlen : (segment (nonExcludedExceptions st) nc ci).length
          = (segPairs st0 nc ci).length := by
        rw [← hksP]
        omega
      have hlen2 : (segPairs st nc ci).length = (segPairs st0 nc ci).length := by
        rw [segPairs, List.length_map]
        exact hlen
      by_cases hany : ((List.range (segment (nonExcludedExceptions st) nc ci).length).any
          (fun i => decide (ks.exceptionPairs.getD i (0, 0)
            ≠ exceptionPairAt st ((segment (nonExcludedExceptions st) nc ci).getD i 0))))
          = true
      · have hred : (copyParametersToContext ks st nc ci).2 =
            .error
              "updateParametersInContext: The set of non-excluded exceptions has changed" := by
          simp only [copyParametersToContext]
          rw [if_neg hcnt, if_neg hseg, if_pos hany]
        have hdiff : segPairs st nc ci ≠ segPairs st0 nc ci := by
          rw [List.any_eq_true] at hany
          obtain ⟨i, hi, hneq⟩ := hany
          rw [List.mem_range] at hi
          rw [decide_eq_true_eq] at hneq
          intro heq
          refine hneq ?_
          rw [hksP, ← heq, segPairs, getD_map_of_lt _ _ i 0 (0, 0) hi]
        refine ⟨fun h => absurd (hksA ▸ h) hcnt, fun _ => ⟨_, hred⟩, fun hok => ?_⟩
        rw [hred] at hok
        cases hok
      · have hpt : ∀ i, i < (segPairs st nc ci).length →
            (segPairs st nc ci).getD i (0, 0) = (segPairs st0 nc ci).getD i (0, 0) := by
          intro i hi
          rw [segPairs, List.length_map] at hi
          have hanyf : ((List.range (segment (nonExcludedExceptions st) nc ci).length).any
              (fun i => decide (ks.exceptionPairs.getD i (0, 0)
                ≠ exceptionPairAt st ((segment (nonExcludedExceptions st) nc ci).getD i 0))))
              = false := Bool.eq_false_iff.2 hany
          have hf := List.any_eq_false.1 hanyf i (List.mem_range.2 hi)
          rw [decide_eq_true_eq, not_not] at hf
          rw [segPairs, getD_map_of_lt _ _ i 0 (0, 0) hi, ← hf, hksP]
        have heqp : segPairs st nc ci = segPairs st0 nc ci :=
          list_eq_of_getD _ _ (0, 0) hlen2 hpt
        have hred : copyParametersToContext ks st nc ci =
            ({ numAtoms := ks.numAtoms
               exceptionPairs := ks.exceptionPairs
               baseParticleCharges := st.particles.map (fun p => p.charge)
               subsets := st.particles.map (fun p => p.subset)
               baseExceptionChargeProds := newChargeProds st nc ci }, .ok ()) := by
          simp only [copyParametersToContext]
          rw [if_neg hcnt, if_neg hseg, if_neg hany]
          rfl
        refine ⟨fun h => absurd (hksA ▸ h) hcnt, fun h => absurd heqp h, fun _ => ?_⟩
        refine ⟨hcnt', heqp, ?_⟩
        rw [hred, hks]
        rfl

/-- Witness for `copyParametersToContext_spec` is not needed (no hypotheses),
but the claim deserves a concrete check: a force whose only exception has
non-zero chargeProd round-trips through the copy unchanged in shape. -/
theorem copyParametersToContext_spec_holds :
    CopyParametersSpec
      { numSubsets := 1, particles := [⟨1, 0⟩], exceptions := [⟨0, 1, 2⟩],
        exceptionMap := [((0, 1), 0)], globalParameters := [],
        switchingParameters := [], switchingParameter := [1],
        switchParamDerivatives := [], particleOffsets := [], exceptionOffsets := [] }
      { numSubsets := 1, particles := [⟨4, 0⟩], exceptions := [⟨0, 1, 3⟩],
        exceptionMap := [((0, 1), 0)], globalParameters := [],
        switchingParameters := [], switchingParameter := [1],
        switchParamDerivatives := [], particleOffsets := [], exceptionOffsets := [] }
      1 0 :=
  copyParametersToContext_spec _ _ 1 0

end SlicedPme
